import Mathlib

/-!
Verification of the pensieve trace decoder (`record_reader.cpp`).

The C++ decoder reads a binary stream of records (frame pushes/pops, frame
definitions, native frames, memory-map/segment records, allocations),
maintains per-thread simulated call stacks, a frame table, a stack
deduplication tree and a generation-versioned symbol resolver, and yields
one decoded allocation per `nextAllocationRecord` call.

The embedding below models the byte stream as a `List Nat` of bytes.  Reads
past the end of the stream produce `ioError`, the end-of-stream signal of
the source boundary.  Struct layouts live in headers that are not part of
this file set; the layout is fixed here (documented per parser) as packed
little-endian fields, which is the one degree of freedom the format grants.
-/

/-- Errors of the decoder.  `ioError` models the source's end-of-stream
exception (`IoError`); `formatError` the header validation failure
(`std::ios_base::failure`); `invalidRecord`, `duplicateFrameId` and
`frameNotFound` the `std::runtime_error` / `std::out_of_range` throws of the
record dispatch, `parseFrameIndex` and `correctAllocationFrame`;
`outOfFuel` is an artefact of the fuel-based embedding of the C++ `while`
loop and is proved unreachable for sufficient fuel. -/
inductive DecodeError where
  | ioError
  | outOfFuel
  | formatError
  | invalidRecord
  | duplicateFrameId
  | frameNotFound
deriving DecidableEq, Repr

/-- Modelled from the spec: the byte-source boundary (`Source::read`).  A
fixed-size read of `n` bytes succeeds iff `n` bytes remain and consumes
them; otherwise the end-of-stream error is signalled. -/
def readBytes (n : Nat) (input : List Nat) : Except DecodeError (List Nat × List Nat) :=
  if n ≤ input.length then .ok (input.take n, input.drop n) else .error .ioError

/-- Little-endian value of a byte list (as read through `reinterpret_cast`). -/
def leToNat : List Nat → Nat
  | [] => 0
  | b :: bs => b + 256 * leToNat bs

/-- Little-endian encoding of `n` on `w` bytes (the writer side). -/
def natLE : Nat → Nat → List Nat
  | 0, _ => []
  | w + 1, n => n % 256 :: natLE w (n / 256)

/-- Read a `w`-byte little-endian unsigned field. -/
def readNat (w : Nat) (input : List Nat) : Except DecodeError (Nat × List Nat) :=
  match readBytes w input with
  | .error e => .error e
  | .ok (bs, rest) => .ok (leToNat bs, rest)

/-- Modelled from the spec: the byte-source boundary (`Source::getline`
with delimiter `'\0'`): bytes up to the first NUL byte are returned, the
NUL is consumed, and hitting end-of-input before a NUL signals the
end-of-stream error. -/
def readCString (input : List Nat) : Except DecodeError (List Nat × List Nat) :=
  match input.findIdx? (fun b => b == 0) with
  | none => .error .ioError
  | some i => .ok (input.take i, input.drop (i + 1))

/-- A Python frame: function name, file name, caller line, own line
(`Frame` in `records.h`; names are byte strings). -/
structure Frame where
  function_name : List Nat
  filename : List Nat
  parent_lineno : Nat
  lineno : Nat
deriving DecidableEq, Repr

/-- A loaded code segment (`Segment`): base virtual address and size.
Modelled from the spec: the struct is read as a fixed-size blob; two
8-byte fields. -/
structure Segment where
  vaddr : Nat
  memsz : Nat
deriving DecidableEq, Repr

/-- An unresolved native frame (`UnresolvedNativeFrame`): instruction
pointer and 1-based index of the caller frame in the chain table,
0 terminating the chain. -/
structure UnresolvedNativeFrame where
  ip : Nat
  index : Nat
deriving DecidableEq, Repr

/-- The raw allocation record (`AllocationRecord`).  The decoder reads the
whole struct and uses `tid` and `py_lineno`. -/
structure AllocationRecord where
  tid : Nat
  address : Nat
  size : Nat
  allocator : Nat
  native_frame_id : Nat
  py_lineno : Nat
deriving DecidableEq, Repr

/-- The trace header (`HeaderRecord`): magic tag, version, native-traces
flag, opaque stats blob, command line. -/
structure HeaderRecord where
  magic : List Nat
  version : Nat
  native_traces : Nat
  stats : List Nat
  command_line : List Nat
deriving DecidableEq, Repr

/-- Modelled from the spec: the supported magic tag (8 bytes, the ASCII
bytes of the product name; `MAGIC` lives in a header not in this file
set). -/
def MAGIC : List Nat := [112, 101, 110, 115, 105, 101, 118, 101]

/-- Modelled from the spec: the single supported header version. -/
def CURRENT_HEADER_VERSION : Nat := 1

/-- Modelled from the spec: the stack-deduplication tree (`FrameTree`),
a flat array of `(frame_id, parent_index)` nodes; index 0 is the reserved
root (empty stack), node `i ≥ 1` is stored at list position `i - 1`. -/
structure FrameTree where
  nodes : List (Nat × Nat)
deriving DecidableEq, Repr

/-- First binding of key `k` in an association list (`unordered_map` find). -/
def alookup (k : Nat) : List (Nat × α) → Option α
  | [] => none
  | (k', v) :: rest => if k = k' then some v else alookup k rest

/-- Replace the first binding of `k` (or append one): the effect of
assigning through `unordered_map::operator[]`. -/
def aset (k : Nat) (v : α) : List (Nat × α) → List (Nat × α)
  | [] => [(k, v)]
  | (k', v') :: rest => if k = k' then (k, v) :: rest else (k', v') :: aset k v rest

/-- `unordered_map::emplace`: insert only if the key is absent. -/
def aemplace (k : Nat) (v : α) (m : List (Nat × α)) : List (Nat × α) :=
  if (alookup k m).isSome then m else m ++ [(k, v)]

/-- Modelled from the spec: `FrameTree::getTraceIndex` walks the stack from
the bottom, following an existing child edge `(frame_id, parent)` or
appending a new node, and returns the index of the deepest node; the empty
stack maps to the reserved index 0. -/
def FrameTree.getTraceIndexGo (t : FrameTree) (cur : Nat) : List Nat → FrameTree × Nat
  | [] => (t, cur)
  | f :: rest =>
    match t.nodes.findIdx? (fun p => p == (f, cur)) with
    | some i => FrameTree.getTraceIndexGo t (i + 1) rest
    | none =>
      FrameTree.getTraceIndexGo ⟨t.nodes ++ [(f, cur)]⟩ (t.nodes.length + 1) rest

def FrameTree.getTraceIndex (t : FrameTree) (stack : List Nat) : FrameTree × Nat :=
  FrameTree.getTraceIndexGo t 0 stack

/-- Modelled from the spec: `FrameTree::nextNode` is the O(1) node lookup
`node_at(trace_index) -> (frame_id, parent_index)`. -/
def FrameTree.nextNode (t : FrameTree) (idx : Nat) : Option (Nat × Nat) :=
  t.nodes.get? (idx - 1)

/-- Modelled from the spec: `FrameCollection::getIndex`
(`d_allocation_frames`), the content-keyed table of synthesized precise
frames: an existing frame is reused, a new one is minted under a fresh
identifier.  Minted identifiers are odd (`2k+1`), keeping the synthesized
namespace disjoint from the even record-defined identifiers, as the
disjoint write-once namespaces of the spec require. -/
def collFindKey (f : Frame) : List (Nat × Frame) → Option Nat
  | [] => none
  | (k, g) :: rest => if g = f then some k else collFindKey f rest

def collGetIndex (coll : List (Nat × Frame)) (f : Frame) : Nat × Bool × List (Nat × Frame) :=
  match collFindKey f coll with
  | some k => (k, false, coll)
  | none => (2 * coll.length + 1, true, coll ++ [(2 * coll.length + 1, f)])

/-- The generation-versioned symbol resolver boundary: the current
generation and the log of `addSegments` registrations, each tagged with
the generation active when it was made.  Resolution itself is an opaque
collaborator and is passed as a function where needed. -/
structure SymbolResolver where
  generation : Nat
  segments_log : List (Nat × List Nat × Nat × List Segment)
deriving DecidableEq, Repr

/-- Modelled from the spec: `clearSegments` increments the generation and
discards the active segment set (historical registrations stay associated
with their own generation). -/
def SymbolResolver.clearSegments (r : SymbolResolver) : SymbolResolver :=
  { r with generation := r.generation + 1 }

/-- Modelled from the spec: `addSegments` registers one module's segments
under the current generation. -/
def SymbolResolver.addSegments (r : SymbolResolver) (file : List Nat) (addr : Nat)
    (segs : List Segment) : SymbolResolver :=
  { r with segments_log := r.segments_log ++ [(r.generation, file, addr, segs)] }

def SymbolResolver.currentSegmentGeneration (r : SymbolResolver) : Nat :=
  r.generation

/-- The decoder state: the data members of the C++ `RecordReader`. -/
structure RecordReader where
  d_stack_traces : List (Nat × List Nat)
  d_frame_map : List (Nat × Frame)
  d_native_frames : List UnresolvedNativeFrame
  d_tree : FrameTree
  d_allocation_frames : List (Nat × Frame)
  d_symbol_resolver : SymbolResolver
  d_header : HeaderRecord
deriving DecidableEq, Repr

/-- A freshly constructed reader holding a parsed header. -/
def initReader (hdr : HeaderRecord) : RecordReader :=
  { d_stack_traces := []
    d_frame_map := []
    d_native_frames := []
    d_tree := ⟨[]⟩
    d_allocation_frames := []
    d_symbol_resolver := { generation := 0, segments_log := [] }
    d_header := hdr }

/-- The decoded allocation handed to the caller (`Allocation`). -/
structure Allocation where
  record : AllocationRecord
  frame_index : Nat
  native_segment_generation : Nat
deriving DecidableEq, Repr

/-- `RecordReader::getHeader`. -/
def getHeader (st : RecordReader) : HeaderRecord :=
  st.d_header

/-- Record type tags.  The numeric values live in a header not in this
file set; fixed here, one byte on the wire. -/
def RT_ALLOCATION : Nat := 1
def RT_FRAME : Nat := 2
def RT_FRAME_INDEX : Nat := 3
def RT_NATIVE_TRACE_INDEX : Nat := 4
def RT_MEMORY_MAP_START : Nat := 5
def RT_SEGMENT_HEADER : Nat := 6
def RT_SEGMENT : Nat := 7

/-- `FrameSeqEntry` actions. -/
def ACTION_PUSH : Nat := 0
def ACTION_POP : Nat := 1

/-- `RecordReader::readHeader`: magic (8 bytes, compared against `MAGIC`),
version (4 bytes, compared against `CURRENT_HEADER_VERSION`), the
native-traces flag (1 byte), the stats blob (24 bytes, opaque) and the
NUL-terminated command line.  A magic or version mismatch raises the
format error; a short read raises the source's end-of-stream error. -/
def readHeader (input : List Nat) : Except DecodeError (HeaderRecord × List Nat) :=
  match readBytes 8 input with
  | .error e => .error e
  | .ok (magic, r0) =>
    if magic ≠ MAGIC then .error .formatError else
    match readNat 4 r0 with
    | .error e => .error e
    | .ok (version, r1) =>
      if version ≠ CURRENT_HEADER_VERSION then .error .formatError else
      match readNat 1 r1 with
      | .error e => .error e
      | .ok (nt, r2) =>
        match readBytes 24 r2 with
        | .error e => .error e
        | .ok (stats, r3) =>
          match readCString r3 with
          | .error e => .error e
          | .ok (cmd, r4) =>
            .ok ({ magic := magic, version := version, native_traces := nt,
                   stats := stats, command_line := cmd }, r4)

/-- `RecordReader::RecordReader`: construction reads and validates the
header before any record is read. -/
def mkRecordReader (input : List Nat) : Except DecodeError (RecordReader × List Nat) :=
  match readHeader input with
  | .error e => .error e
  | .ok (hdr, rest) => .ok (initReader hdr, rest)

/-- `RecordReader::parseFrame`: reads one `FrameSeqEntry` (tid 8 bytes,
frame id 8 bytes, action 1 byte, packed) and applies it to the thread's
stack.  `PUSH` appends (creating the thread entry on first use, as
`operator[]` does); `POP` drops the last element.  The C++ guards the pop
only with a debug-mode `assert(!empty())`; popping an empty vector is
undefined behaviour in C++ and is modelled here as leaving the (empty)
stack empty.  An action byte that is neither `PUSH` nor `POP` falls
through the `switch` with no effect. -/
def parseFrame (st : RecordReader) (input : List Nat) :
    Except DecodeError (RecordReader × List Nat) :=
  match readNat 8 input with
  | .error e => .error e
  | .ok (tid, r0) =>
    match readNat 8 r0 with
    | .error e => .error e
    | .ok (fid, r1) =>
      match readNat 1 r1 with
      | .error e => .error e
      | .ok (action, r2) =>
        if action = ACTION_PUSH then
          let s' := (alookup tid st.d_stack_traces).getD [] ++ [fid]
          .ok ({ st with d_stack_traces := aset tid s' st.d_stack_traces }, r2)
        else if action = ACTION_POP then
          let s' := ((alookup tid st.d_stack_traces).getD []).dropLast
          .ok ({ st with d_stack_traces := aset tid s' st.d_stack_traces }, r2)
        else
          .ok (st, r2)

/-- `RecordReader::parseFrameIndex`: reads a frame id (8 bytes), the
function name and file name (NUL-terminated), the caller line (4 bytes),
and inserts the pair into the frame map; a duplicate id raises
`"Two entries with the same ID found!"`.  The own line of a freshly
defined frame is value-initialized to 0. -/
def parseFrameIndex (st : RecordReader) (input : List Nat) :
    Except DecodeError (RecordReader × List Nat) :=
  match readNat 8 input with
  | .error e => .error e
  | .ok (fid, r0) =>
    match readCString r0 with
    | .error e => .error e
    | .ok (fn, r1) =>
      match readCString r1 with
      | .error e => .error e
      | .ok (file, r2) =>
        match readNat 4 r2 with
        | .error e => .error e
        | .ok (pl, r3) =>
          if (alookup fid st.d_frame_map).isSome then
            .error .duplicateFrameId
          else
            let fr : Frame := { function_name := fn, filename := file,
                                parent_lineno := pl, lineno := 0 }
            .ok ({ st with d_frame_map := st.d_frame_map ++ [(fid, fr)] }, r3)

/-- `RecordReader::parseNativeFrameIndex`: reads one
`UnresolvedNativeFrame` (ip 8 bytes, next index 8 bytes) and appends it to
the chain table. -/
def parseNativeFrameIndex (st : RecordReader) (input : List Nat) :
    Except DecodeError (RecordReader × List Nat) :=
  match readNat 8 input with
  | .error e => .error e
  | .ok (ip, r0) =>
    match readNat 8 r0 with
    | .error e => .error e
    | .ok (idx, r1) =>
      .ok ({ st with d_native_frames := st.d_native_frames ++ [⟨ip, idx⟩] }, r1)

/-- `RecordReader::parseAllocationRecord`: reads the fixed allocation
struct (tid 8, address 8, size 8, allocator 1, native frame id 8,
line 4; packed). -/
def parseAllocationRecord (input : List Nat) :
    Except DecodeError (AllocationRecord × List Nat) :=
  match readNat 8 input with
  | .error e => .error e
  | .ok (tid, r0) =>
    match readNat 8 r0 with
    | .error e => .error e
    | .ok (address, r1) =>
      match readNat 8 r1 with
      | .error e => .error e
      | .ok (size, r2) =>
        match readNat 1 r2 with
        | .error e => .error e
        | .ok (alloc, r3) =>
          match readNat 8 r3 with
          | .error e => .error e
          | .ok (nfi, r4) =>
            match readNat 4 r4 with
            | .error e => .error e
            | .ok (lineno, r5) =>
              .ok ({ tid := tid, address := address, size := size,
                     allocator := alloc, native_frame_id := nfi,
                     py_lineno := lineno }, r5)

/-- `RecordReader::parseSegment`: one leading record-type byte (asserted
in debug mode to be `SEGMENT`, otherwise ignored) followed by the
fixed-size segment struct. -/
def parseSegment (input : List Nat) : Except DecodeError (Segment × List Nat) :=
  match readNat 1 input with
  | .error e => .error e
  | .ok (_, r0) =>
    match readNat 8 r0 with
    | .error e => .error e
    | .ok (va, r1) =>
      match readNat 8 r1 with
      | .error e => .error e
      | .ok (ms, r2) => .ok ({ vaddr := va, memsz := ms }, r2)

/-- The `for` loop of `parseSegmentHeader`: appends `n` parsed segments to
the accumulator. -/
def parseSegmentsInto (acc : List Segment) : Nat → List Nat →
    Except DecodeError (List Segment × List Nat)
  | 0, input => .ok (acc, input)
  | n + 1, input =>
    match parseSegment input with
    | .error e => .error e
    | .ok (seg, rest) => parseSegmentsInto (acc ++ [seg]) n rest

/-- `RecordReader::parseSegmentHeader`: reads the module path
(NUL-terminated), the segment count (8 bytes) and the base address
(8 bytes), builds `std::vector<Segment> segments(num_segments)` — that is,
`num_segments` value-initialized segments — then appends
(`emplace_back`) one parsed segment per iteration, and registers the
resulting vector with the symbol resolver under the current generation. -/
def parseSegmentHeader (st : RecordReader) (input : List Nat) :
    Except DecodeError (RecordReader × List Nat) :=
  match readCString input with
  | .error e => .error e
  | .ok (filename, r0) =>
    match readNat 8 r0 with
    | .error e => .error e
    | .ok (num_segments, r1) =>
      match readNat 8 r1 with
      | .error e => .error e
      | .ok (addr, r2) =>
        match parseSegmentsInto (List.replicate num_segments ⟨0, 0⟩) num_segments r2 with
        | .error e => .error e
        | .ok (segments, r3) =>
          let res := st.d_symbol_resolver.addSegments filename addr segments
          .ok ({ st with d_symbol_resolver := res }, r3)

/-- `RecordReader::correctAllocationFrame`: an empty stack is untouched;
otherwise the partial frame of the top identifier is looked up
(`d_frame_map.at`, raising if absent), a candidate frame with the
allocation's line filled in is interned through the synthesized-frame
table, registered in the frame map when new, and the top of the stack is
rewritten to the precise identifier. -/
def correctAllocationFrame (st : RecordReader) (stack : List Nat) (lineno : Nat) :
    Except DecodeError (List Nat × RecordReader) :=
  match stack.getLast? with
  | none => .ok (stack, st)
  | some t =>
    match alookup t st.d_frame_map with
    | none => .error .frameNotFound
    | some pf =>
      let af : Frame := { function_name := pf.function_name, filename := pf.filename,
                          parent_lineno := pf.parent_lineno, lineno := lineno }
      match collGetIndex st.d_allocation_frames af with
      | (idx, isNew, coll') =>
        let fm' := if isNew then aemplace idx af st.d_frame_map else st.d_frame_map
        .ok (stack.dropLast ++ [idx],
             { st with d_allocation_frames := coll', d_frame_map := fm' })

/-- `RecordReader::getAllocationFrameIndex`: a thread with no recorded
stack yields trace index 0 with no further effect; otherwise the stack is
corrected in place (the C++ mutates it through a reference into
`d_stack_traces`) and interned in the deduplication tree. -/
def getAllocationFrameIndex (st : RecordReader) (rec : AllocationRecord) :
    Except DecodeError (Nat × RecordReader) :=
  match alookup rec.tid st.d_stack_traces with
  | none => .ok (0, st)
  | some s =>
    match correctAllocationFrame st s rec.py_lineno with
    | .error e => .error e
    | .ok (s', st1) =>
      let st2 := { st1 with d_stack_traces := aset rec.tid s' st1.d_stack_traces }
      match st2.d_tree.getTraceIndex s' with
      | (t', idx) => .ok (idx, { st2 with d_tree := t' })

/-- The record loop of `RecordReader::nextAllocationRecord`: reads one
record-type byte and dispatches; side-effecting records continue the
loop, an allocation returns, the source's end-of-stream error anywhere is
caught and surfaces as the "no more records" result (`none`), and any
other failure propagates.  The structural fuel stands in for the C++
`while (true)`; each iteration consumes at least the type byte, so
`input.length + 1` fuel always suffices (proved below). -/
def nextAux (st : RecordReader) : Nat → List Nat →
    Except DecodeError (Option Allocation × RecordReader × List Nat)
  | 0, _ => .error .outOfFuel
  | fuel + 1, input =>
    match readBytes 1 input with
    | .error _ => .ok (none, st, input)
    | .ok (tb, r0) =>
      let rt := leToNat tb
      if rt = RT_ALLOCATION then
        match parseAllocationRecord r0 with
        | .error .ioError => .ok (none, st, r0)
        | .error e => .error e
        | .ok (rec, r1) =>
          match getAllocationFrameIndex st rec with
          | .error e => .error e
          | .ok (fidx, st') =>
            let gen := st'.d_symbol_resolver.currentSegmentGeneration
            .ok (some { record := rec, frame_index := fidx,
                        native_segment_generation := gen }, st', r1)
      else if rt = RT_FRAME then
        match parseFrame st r0 with
        | .error .ioError => .ok (none, st, r0)
        | .error e => .error e
        | .ok (st', r1) => nextAux st' fuel r1
      else if rt = RT_FRAME_INDEX then
        match parseFrameIndex st r0 with
        | .error .ioError => .ok (none, st, r0)
        | .error e => .error e
        | .ok (st', r1) => nextAux st' fuel r1
      else if rt = RT_NATIVE_TRACE_INDEX then
        match parseNativeFrameIndex st r0 with
        | .error .ioError => .ok (none, st, r0)
        | .error e => .error e
        | .ok (st', r1) => nextAux st' fuel r1
      else if rt = RT_MEMORY_MAP_START then
        nextAux { st with d_symbol_resolver := st.d_symbol_resolver.clearSegments } fuel r0
      else if rt = RT_SEGMENT_HEADER then
        match parseSegmentHeader st r0 with
        | .error .ioError => .ok (none, st, r0)
        | .error e => .error e
        | .ok (st', r1) => nextAux st' fuel r1
      else
        .error .invalidRecord

/-- `RecordReader::nextAllocationRecord`: `some` allocation plays the C++
`true` return (with the out-parameter), `none` the `false`
"no more records" return. -/
def nextAllocationRecord (st : RecordReader) (input : List Nat) :
    Except DecodeError (Option Allocation × RecordReader × List Nat) :=
  nextAux st (input.length + 1) input

/-- Repeated calls to `nextAllocationRecord` until it reports
"no more records": the caller-side read loop.  Each successful call
consumes at least one byte, so `input.length + 1` fuel suffices. -/
def collectAux : Nat → RecordReader → List Nat →
    Except DecodeError (List Allocation × RecordReader)
  | 0, _, _ => .error .outOfFuel
  | fuel + 1, st, input =>
    match nextAllocationRecord st input with
    | .error e => .error e
    | .ok (none, st', _) => .ok ([], st')
    | .ok (some a, st', rest) =>
      match collectAux fuel st' rest with
      | .error e => .error e
      | .ok (as, st'') => .ok (a :: as, st'')

def collectAllocations (st : RecordReader) (input : List Nat) :
    Except DecodeError (List Allocation × RecordReader) :=
  collectAux (input.length + 1) st input

/-- The loop of `RecordReader::Py_GetStackFrame`: walk the deduplication
tree from `idx` toward the root, at most `maxd` steps
(`stacks_obtained++ != max_stacks`), emitting at each step the frame of
the visited node paired with the line the boundary conversion receives
(`current_lineno`, `-1` for the deepest frame, then the previous frame's
caller line).  A dangling node or frame id is the C++ out-of-range throw,
surfacing as `none`. -/
def pyWalkGo (tree : FrameTree) (fm : List (Nat × Frame)) :
    Nat → Nat → Int → Option (List (Frame × Int))
  | _, 0, _ => some []
  | 0, _ + 1, _ => some []
  | maxd + 1, idx + 1, curLine =>
    match tree.nextNode (idx + 1) with
    | none => none
    | some node =>
      match alookup node.1 fm with
      | none => none
      | some frame =>
        match pyWalkGo tree fm maxd node.2 (frame.parent_lineno : Int) with
        | none => none
        | some rest => some ((frame, curLine) :: rest)

/-- `RecordReader::Py_GetStackFrame` (the walk; object materialization is
the boundary's concern). -/
def Py_GetStackFrame (tree : FrameTree) (fm : List (Nat × Frame))
    (index : Nat) (max_stacks : Nat) : Option (List (Frame × Int)) :=
  pyWalkGo tree fm max_stacks index (-1)

/-- The loop of `RecordReader::Py_GetNativeStackFrame`: walk the native
chain from `idx`, at most `maxd` links (`stacks_obtained++ != max_stacks`),
resolving each link's instruction pointer at the given generation through
the opaque resolver; an unresolved link is skipped (`continue`) and a
resolved one contributes its whole inlined-frame sequence.  The result
pairs the emitted frames with the number of links traversed.  Indexing
`d_native_frames[current_index - 1]` out of range is undefined behaviour
in C++, modelled as `none`. -/
def nativeWalkGo (chain : List UnresolvedNativeFrame)
    (resolve : Nat → Nat → Option (List Nat)) (gen : Nat) :
    Nat → Nat → Option (List Nat × Nat)
  | _, 0 => some ([], 0)
  | 0, _ + 1 => some ([], 0)
  | maxd + 1, idx + 1 =>
    match chain.get? idx with
    | none => none
    | some f =>
      match nativeWalkGo chain resolve gen maxd f.index with
      | none => none
      | some (fr, steps) =>
        match resolve f.ip gen with
        | none => some (fr, steps + 1)
        | some fs => some (fs ++ fr, steps + 1)

/-- `RecordReader::Py_GetNativeStackFrame` (the walk). -/
def Py_GetNativeStackFrame (chain : List UnresolvedNativeFrame)
    (resolve : Nat → Nat → Option (List Nat)) (index : Nat) (generation : Nat)
    (max_stacks : Nat) : Option (List Nat × Nat) :=
  nativeWalkGo chain resolve generation max_stacks index

/-! ## The writer side: serialized records and well-formed traces

The producer's record encodings, matching the parsers byte for byte. -/

/-- A record of the trace body, at the writer's level of abstraction. -/
inductive TraceRecord where
  | allocation (rec : AllocationRecord)
  | framePush (tid fid : Nat)
  | framePop (tid : Nat)
  | frameIndex (fid : Nat) (fn file : List Nat) (pl : Nat)
  | nativeIndex (ip idx : Nat)
  | memoryMapStart
  | segmentHeader (file : List Nat) (addr : Nat) (segs : List Segment)
deriving DecidableEq, Repr

def encodeSegment (s : Segment) : List Nat :=
  [RT_SEGMENT] ++ natLE 8 s.vaddr ++ natLE 8 s.memsz

def encodeSegments : List Segment → List Nat
  | [] => []
  | s :: rest => encodeSegment s ++ encodeSegments rest

/-- Byte encoding of one record (a leading type byte, then the payload). -/
def encodeRecord : TraceRecord → List Nat
  | .allocation rec =>
    [RT_ALLOCATION] ++ natLE 8 rec.tid ++ natLE 8 rec.address ++ natLE 8 rec.size
      ++ natLE 1 rec.allocator ++ natLE 8 rec.native_frame_id ++ natLE 4 rec.py_lineno
  | .framePush tid fid => [RT_FRAME] ++ natLE 8 tid ++ natLE 8 fid ++ natLE 1 ACTION_PUSH
  | .framePop tid => [RT_FRAME] ++ natLE 8 tid ++ natLE 8 0 ++ natLE 1 ACTION_POP
  | .frameIndex fid fn file pl =>
    [RT_FRAME_INDEX] ++ natLE 8 fid ++ fn ++ [0] ++ file ++ [0] ++ natLE 4 pl
  | .nativeIndex ip idx => [RT_NATIVE_TRACE_INDEX] ++ natLE 8 ip ++ natLE 8 idx
  | .memoryMapStart => [RT_MEMORY_MAP_START]
  | .segmentHeader file addr segs =>
    [RT_SEGMENT_HEADER] ++ file ++ [0] ++ natLE 8 segs.length ++ natLE 8 addr
      ++ encodeSegments segs

def encodeTrace : List TraceRecord → List Nat
  | [] => []
  | r :: rs => encodeRecord r ++ encodeTrace rs

/-- A byte string fit for a NUL-terminated field: in range and NUL-free. -/
def strOk (s : List Nat) : Bool :=
  s.all (fun b => decide (0 < b) && decide (b < 256))

/-- The writer-side view of the decoder state that well-formedness needs:
which frame ids have been defined, and each thread's stack of (defined)
frame ids as pushed, before any line correction. -/
structure WfState where
  ids : List Nat
  thread_stacks : List (Nat × List Nat)
deriving DecidableEq, Repr

def wfStep (w : WfState) : TraceRecord → WfState
  | .framePush tid fid =>
    { w with thread_stacks := aset tid ((alookup tid w.thread_stacks).getD [] ++ [fid]) w.thread_stacks }
  | .framePop tid =>
    { w with thread_stacks := aset tid ((alookup tid w.thread_stacks).getD []).dropLast w.thread_stacks }
  | .frameIndex fid _ _ _ => { w with ids := w.ids ++ [fid] }
  | _ => w

/-- Well-formedness of one record against the writer state: all fields fit
their wire width, strings are NUL-free, frame definitions use fresh even
identifiers (record-defined ids and synthesized precise-frame ids are
disjoint write-once namespaces), pushes only push defined frames and pops
only pop non-empty stacks. -/
def wfRecordOk (w : WfState) : TraceRecord → Bool
  | .allocation rec =>
    decide (rec.tid < 2 ^ 64) && decide (rec.address < 2 ^ 64)
      && decide (rec.size < 2 ^ 64) && decide (rec.allocator < 2 ^ 8)
      && decide (rec.native_frame_id < 2 ^ 64) && decide (rec.py_lineno < 2 ^ 32)
  | .framePush tid fid =>
    decide (tid < 2 ^ 64) && decide (fid < 2 ^ 64) && w.ids.contains fid
  | .framePop tid =>
    decide (tid < 2 ^ 64) && !((alookup tid w.thread_stacks).getD []).isEmpty
  | .frameIndex fid fn file pl =>
    decide (fid < 2 ^ 64) && decide (fid % 2 = 0) && !(w.ids.contains fid)
      && strOk fn && strOk file && decide (pl < 2 ^ 32)
  | .nativeIndex ip idx => decide (ip < 2 ^ 64) && decide (idx < 2 ^ 64)
  | .memoryMapStart => true
  | .segmentHeader file addr segs =>
    strOk file && decide (addr < 2 ^ 64) && decide (segs.length < 2 ^ 64)
      && segs.all (fun s => decide (s.vaddr < 2 ^ 64) && decide (s.memsz < 2 ^ 64))

def wellFormedFrom (w : WfState) : List TraceRecord → Bool
  | [] => true
  | r :: rs => wfRecordOk w r && wellFormedFrom (wfStep w r) rs

/-- A well-formed trace body, from the initial (empty) writer state. -/
def wellFormed (rs : List TraceRecord) : Bool :=
  wellFormedFrom ⟨[], []⟩ rs

/-- The allocation records of a trace, in stream order. -/
def allocationPayloads : List TraceRecord → List AllocationRecord
  | [] => []
  | .allocation rec :: rs => rec :: allocationPayloads rs
  | _ :: rs => allocationPayloads rs

/-- Split a trace at its first allocation record. -/
def splitAlloc : List TraceRecord → Option (AllocationRecord × List TraceRecord)
  | [] => none
  | .allocation rec :: rs => some (rec, rs)
  | _ :: rs => splitAlloc rs

deriving instance DecidableEq for Except

/-! ## Basic properties of the byte primitives -/

theorem natLE_length (w n : Nat) : (natLE w n).length = w := by
  induction w generalizing n with
  | zero => rfl
  | succ w ih => simp [natLE, ih]

theorem leToNat_natLE (w n : Nat) (h : n < 256 ^ w) : leToNat (natLE w n) = n := by
  induction w generalizing n with
  | zero =>
    simp [natLE, leToNat]
    omega
  | succ w ih =>
    have hdiv : n / 256 < 256 ^ w := by
      rw [Nat.div_lt_iff_lt_mul (by norm_num)]
      calc n < 256 ^ (w + 1) := h
        _ = 256 ^ w * 256 := by ring
    simp [natLE, leToNat, ih _ hdiv]
    omega

theorem readBytes_exact (n : Nat) (bs rest : List Nat) (h : bs.length = n) :
    readBytes n (bs ++ rest) = .ok (bs, rest) := by
  subst h
  simp [readBytes, List.take_left, List.drop_left]

theorem readBytes_length {n : Nat} {input bs rest : List Nat}
    (h : readBytes n input = .ok (bs, rest)) : rest.length + n = input.length := by
  unfold readBytes at h
  split at h
  · rename_i hle
    injection h with h
    injection h with h1 h2
    subst h2
    simp [List.length_drop]
    omega
  · exact absurd h (by simp)

theorem readNat_encode (w n : Nat) (rest : List Nat) (h : n < 256 ^ w) :
    readNat w (natLE w n ++ rest) = .ok (n, rest) := by
  simp [readNat, readBytes_exact w (natLE w n) rest (natLE_length w n),
        leToNat_natLE w n h]

theorem readNat_length {w : Nat} {input : List Nat} {n : Nat} {rest : List Nat}
    (h : readNat w input = .ok (n, rest)) : rest.length + w = input.length := by
  unfold readNat at h
  split at h
  · exact absurd h (by simp)
  · rename_i bs r hr
    injection h with h
    injection h with h1 h2
    subst h2
    exact readBytes_length hr

theorem readCString_encode (s rest : List Nat) (h : ∀ b ∈ s, b ≠ 0) :
    readCString (s ++ 0 :: rest) = .ok (s, rest) := by
  have hidx : ∀ (l : List Nat), (∀ b ∈ l, b ≠ 0) →
      List.findIdx? (fun b => b == 0) (l ++ 0 :: rest) = some l.length := by
    intro l
    induction l with
    | nil => intro _; simp [List.findIdx?_cons]
    | cons b l ih =>
      intro hb
      have hb0 : b ≠ 0 := hb b (List.mem_cons_self b l)
      simp only [List.cons_append, List.findIdx?_cons, List.findIdx?_succ]
      simp only [beq_iff_eq, if_neg hb0]
      rw [ih (fun x hx => hb x (List.mem_cons_of_mem b hx))]
      simp
  unfold readCString
  rw [hidx s h]
  have htake : (s ++ 0 :: rest).take s.length = s := List.take_left s (0 :: rest)
  have hdrop : (s ++ 0 :: rest).drop (s.length + 1) = rest := by
    rw [← List.drop_drop]
    rw [List.drop_left s (0 :: rest)]
    rfl
  simp [htake, hdrop]

theorem findIdxq_some_lt {p : Nat → Bool} {l : List Nat} {i : Nat}
    (h : List.findIdx? p l = some i) : i < l.length := by
  induction l generalizing i with
  | nil => simp [List.findIdx?] at h
  | cons b t ih =>
    rw [List.findIdx?_cons] at h
    by_cases hb : p b = true
    · rw [if_pos hb] at h
      injection h with h
      simp [← h]
    · rw [if_neg hb, List.findIdx?_succ] at h
      cases hf : List.findIdx? p t with
      | none => rw [hf] at h; exact absurd h (by simp)
      | some j =>
        rw [hf] at h
        simp only [Option.map_some'] at h
        injection h with h
        have := ih hf
        simp
        omega

theorem readCString_length {input s rest : List Nat}
    (h : readCString input = .ok (s, rest)) : rest.length < input.length := by
  unfold readCString at h
  split at h
  · exact absurd h (by simp)
  · rename_i i hi
    injection h with h
    injection h with h1 h2
    subst h2
    have hlt : i < input.length := findIdxq_some_lt hi
    simp [List.length_drop]
    omega

/-! ## Parser round trips and consumption bounds -/

theorem parseFrame_encode (st : RecordReader) (tid fid act : Nat) (rest : List Nat)
    (h1 : tid < 256 ^ 8) (h2 : fid < 256 ^ 8) (h3 : act < 256 ^ 1) :
    parseFrame st (natLE 8 tid ++ (natLE 8 fid ++ (natLE 1 act ++ rest))) =
      (if act = ACTION_PUSH then
        .ok ({ st with d_stack_traces := aset tid ((alookup tid st.d_stack_traces).getD [] ++ [fid]) st.d_stack_traces }, rest)
      else if act = ACTION_POP then
        .ok ({ st with d_stack_traces := aset tid ((alookup tid st.d_stack_traces).getD []).dropLast st.d_stack_traces }, rest)
      else .ok (st, rest)) := by
  unfold parseFrame
  rw [readNat_encode 8 tid _ h1]
  simp only []
  rw [readNat_encode 8 fid _ h2]
  simp only []
  rw [readNat_encode 1 act _ h3]

theorem parseFrame_length {st st' : RecordReader} {input rest : List Nat}
    (h : parseFrame st input = .ok (st', rest)) : rest.length ≤ input.length := by
  unfold parseFrame at h
  split at h <;> try exact Except.noConfusion h
  rename_i tid r0 h0
  split at h <;> try exact Except.noConfusion h
  rename_i fid r1 h1
  split at h <;> try exact Except.noConfusion h
  rename_i act r2 h2
  have l0 := readNat_length h0
  have l1 := readNat_length h1
  have l2 := readNat_length h2
  split at h
  · injection h with h
    injection h with ha hb
    subst hb
    omega
  · split at h
    · injection h with h
      injection h with ha hb
      subst hb
      omega
    · injection h with h
      injection h with ha hb
      subst hb
      omega

theorem parseFrameIndex_encode (st : RecordReader) (fid : Nat) (fn file : List Nat)
    (pl : Nat) (rest : List Nat) (h1 : fid < 256 ^ 8) (h2 : ∀ b ∈ fn, b ≠ 0)
    (h3 : ∀ b ∈ file, b ≠ 0) (h4 : pl < 256 ^ 4) :
    parseFrameIndex st (natLE 8 fid ++ (fn ++ 0 :: (file ++ 0 :: (natLE 4 pl ++ rest)))) =
      (if (alookup fid st.d_frame_map).isSome then .error .duplicateFrameId
       else .ok ({ st with d_frame_map := st.d_frame_map ++ [(fid, ⟨fn, file, pl, 0⟩)] }, rest)) := by
  unfold parseFrameIndex
  rw [readNat_encode 8 fid _ h1]
  simp only []
  rw [readCString_encode fn _ h2]
  simp only []
  rw [readCString_encode file _ h3]
  simp only []
  rw [readNat_encode 4 pl _ h4]

theorem parseFrameIndex_length {st st' : RecordReader} {input rest : List Nat}
    (h : parseFrameIndex st input = .ok (st', rest)) : rest.length ≤ input.length := by
  unfold parseFrameIndex at h
  split at h <;> try exact Except.noConfusion h
  rename_i fid r0 h0
  split at h <;> try exact Except.noConfusion h
  rename_i fn r1 h1
  split at h <;> try exact Except.noConfusion h
  rename_i file r2 h2
  split at h <;> try exact Except.noConfusion h
  rename_i pl r3 h3
  have l0 := readNat_length h0
  have l1 := readCString_length h1
  have l2 := readCString_length h2
  have l3 := readNat_length h3
  split at h
  · exact Except.noConfusion h
  · injection h with h
    injection h with ha hb
    subst hb
    omega

theorem parseNativeFrameIndex_encode (st : RecordReader) (ip idx : Nat) (rest : List Nat)
    (h1 : ip < 256 ^ 8) (h2 : idx < 256 ^ 8) :
    parseNativeFrameIndex st (natLE 8 ip ++ (natLE 8 idx ++ rest)) =
      .ok ({ st with d_native_frames := st.d_native_frames ++ [⟨ip, idx⟩] }, rest) := by
  unfold parseNativeFrameIndex
  rw [readNat_encode 8 ip _ h1]
  simp only []
  rw [readNat_encode 8 idx _ h2]

theorem parseNativeFrameIndex_length {st st' : RecordReader} {input rest : List Nat}
    (h : parseNativeFrameIndex st input = .ok (st', rest)) : rest.length ≤ input.length := by
  unfold parseNativeFrameIndex at h
  split at h <;> try exact Except.noConfusion h
  rename_i ip r0 h0
  split at h <;> try exact Except.noConfusion h
  rename_i idx r1 h1
  have l0 := readNat_length h0
  have l1 := readNat_length h1
  injection h with h
  injection h with ha hb
  subst hb
  omega

theorem parseAllocationRecord_encode (rec : AllocationRecord) (rest : List Nat)
    (h1 : rec.tid < 256 ^ 8) (h2 : rec.address < 256 ^ 8) (h3 : rec.size < 256 ^ 8)
    (h4 : rec.allocator < 256 ^ 1) (h5 : rec.native_frame_id < 256 ^ 8)
    (h6 : rec.py_lineno < 256 ^ 4) :
    parseAllocationRecord (natLE 8 rec.tid ++ (natLE 8 rec.address ++ (natLE 8 rec.size ++
        (natLE 1 rec.allocator ++ (natLE 8 rec.native_frame_id ++ (natLE 4 rec.py_lineno ++ rest)))))) =
      .ok (rec, rest) := by
  unfold parseAllocationRecord
  rw [readNat_encode 8 rec.tid _ h1]
  simp only []
  rw [readNat_encode 8 rec.address _ h2]
  simp only []
  rw [readNat_encode 8 rec.size _ h3]
  simp only []
  rw [readNat_encode 1 rec.allocator _ h4]
  simp only []
  rw [readNat_encode 8 rec.native_frame_id _ h5]
  simp only []
  rw [readNat_encode 4 rec.py_lineno _ h6]

theorem parseAllocationRecord_length {input rest : List Nat} {rec : AllocationRecord}
    (h : parseAllocationRecord input = .ok (rec, rest)) : rest.length ≤ input.length := by
  unfold parseAllocationRecord at h
  split at h <;> try exact Except.noConfusion h
  rename_i tid r0 h0
  split at h <;> try exact Except.noConfusion h
  rename_i address r1 h1
  split at h <;> try exact Except.noConfusion h
  rename_i size r2 h2
  split at h <;> try exact Except.noConfusion h
  rename_i alc r3 h3
  split at h <;> try exact Except.noConfusion h
  rename_i nfi r4 h4
  split at h <;> try exact Except.noConfusion h
  rename_i lineno r5 h5
  have l0 := readNat_length h0
  have l1 := readNat_length h1
  have l2 := readNat_length h2
  have l3 := readNat_length h3
  have l4 := readNat_length h4
  have l5 := readNat_length h5
  injection h with h
  injection h with ha hb
  subst hb
  omega

theorem parseSegment_encode (s : Segment) (rest : List Nat)
    (h1 : s.vaddr < 256 ^ 8) (h2 : s.memsz < 256 ^ 8) :
    parseSegment ([RT_SEGMENT] ++ (natLE 8 s.vaddr ++ (natLE 8 s.memsz ++ rest))) =
      .ok (s, rest) := by
  unfold parseSegment
  rw [show ([RT_SEGMENT] ++ (natLE 8 s.vaddr ++ (natLE 8 s.memsz ++ rest))) =
        natLE 1 RT_SEGMENT ++ (natLE 8 s.vaddr ++ (natLE 8 s.memsz ++ rest)) from rfl]
  rw [readNat_encode 1 RT_SEGMENT _ (by norm_num [RT_SEGMENT])]
  simp only []
  rw [readNat_encode 8 s.vaddr _ h1]
  simp only []
  rw [readNat_encode 8 s.memsz _ h2]

theorem parseSegment_length {input rest : List Nat} {s : Segment}
    (h : parseSegment input = .ok (s, rest)) : rest.length ≤ input.length := by
  unfold parseSegment at h
  split at h <;> try exact Except.noConfusion h
  rename_i rt r0 h0
  split at h <;> try exact Except.noConfusion h
  rename_i va r1 h1
  split at h <;> try exact Except.noConfusion h
  rename_i ms r2 h2
  have l0 := readNat_length h0
  have l1 := readNat_length h1
  have l2 := readNat_length h2
  injection h with h
  injection h with ha hb
  subst hb
  omega

theorem parseSegmentsInto_encode (segs : List Segment) (acc : List Segment) (rest : List Nat)
    (hb : ∀ s ∈ segs, s.vaddr < 256 ^ 8 ∧ s.memsz < 256 ^ 8) :
    parseSegmentsInto acc segs.length (encodeSegments segs ++ rest) = .ok (acc ++ segs, rest) := by
  induction segs generalizing acc with
  | nil => simp [parseSegmentsInto, encodeSegments]
  | cons s segs ih =>
    have hs := hb s (List.mem_cons_self s segs)
    simp only [List.length_cons, parseSegmentsInto, encodeSegments]
    rw [show (encodeSegment s ++ encodeSegments segs ++ rest) =
          [RT_SEGMENT] ++ (natLE 8 s.vaddr ++ (natLE 8 s.memsz ++ (encodeSegments segs ++ rest))) by
      simp [encodeSegment]]
    rw [parseSegment_encode s _ hs.1 hs.2]
    simp only []
    rw [ih _ (fun x hx => hb x (List.mem_cons_of_mem s hx))]
    simp

theorem parseSegmentsInto_length {acc acc' : List Segment} {n : Nat} {input rest : List Nat}
    (h : parseSegmentsInto acc n input = .ok (acc', rest)) : rest.length ≤ input.length := by
  induction n generalizing acc input with
  | zero =>
    unfold parseSegmentsInto at h
    injection h with h
    injection h with ha hb
    subst hb
    exact Nat.le_refl _
  | succ n ih =>
    unfold parseSegmentsInto at h
    split at h <;> try exact Except.noConfusion h
    rename_i seg r0 h0
    have l0 := parseSegment_length h0
    have l1 := ih h
    omega

theorem parseSegmentHeader_encode (st : RecordReader) (file : List Nat) (addr : Nat)
    (segs : List Segment) (rest : List Nat) (h1 : ∀ b ∈ file, b ≠ 0)
    (h2 : segs.length < 256 ^ 8) (h3 : addr < 256 ^ 8)
    (h4 : ∀ s ∈ segs, s.vaddr < 256 ^ 8 ∧ s.memsz < 256 ^ 8) :
    parseSegmentHeader st (file ++ 0 :: (natLE 8 segs.length ++ (natLE 8 addr ++ (encodeSegments segs ++ rest)))) =
      .ok ({ st with d_symbol_resolver := st.d_symbol_resolver.addSegments file addr (List.replicate segs.length ⟨0, 0⟩ ++ segs) }, rest) := by
  unfold parseSegmentHeader
  rw [readCString_encode file _ h1]
  simp only []
  rw [readNat_encode 8 segs.length _ h2]
  simp only []
  rw [readNat_encode 8 addr _ h3]
  simp only []
  rw [parseSegmentsInto_encode segs _ rest h4]

theorem parseSegmentHeader_length {st st' : RecordReader} {input rest : List Nat}
    (h : parseSegmentHeader st input = .ok (st', rest)) : rest.length ≤ input.length := by
  unfold parseSegmentHeader at h
  split at h <;> try exact Except.noConfusion h
  rename_i file r0 h0
  split at h <;> try exact Except.noConfusion h
  rename_i ns r1 h1
  split at h <;> try exact Except.noConfusion h
  rename_i addr r2 h2
  split at h <;> try exact Except.noConfusion h
  rename_i segs r3 h3
  have l0 := readCString_length h0
  have l1 := readNat_length h1
  have l2 := readNat_length h2
  have l3 := parseSegmentsInto_length h3
  injection h with h
  injection h with ha hb
  subst hb
  omega

/-! ## One-record step behaviour of the decode loop -/

theorem readByte_cons (b : Nat) (rest : List Nat) : readBytes 1 (b :: rest) = .ok ([b], rest) := by
  simp [readBytes]

theorem leToNat_single (b : Nat) : leToNat [b] = b := by
  simp [leToNat]

theorem nextAux_nil (st : RecordReader) (fuel : Nat) :
    nextAux st (fuel + 1) [] = .ok (none, st, []) := by
  conv_lhs => unfold nextAux
  simp [readBytes]

theorem nextAux_encode_push (st : RecordReader) (fuel : Nat) (tid fid : Nat) (tail : List Nat)
    (h1 : tid < 256 ^ 8) (h2 : fid < 256 ^ 8) :
    nextAux st (fuel + 1) (encodeRecord (.framePush tid fid) ++ tail) =
      nextAux { st with d_stack_traces := aset tid ((alookup tid st.d_stack_traces).getD [] ++ [fid]) st.d_stack_traces } fuel tail := by
  have hshape : encodeRecord (.framePush tid fid) ++ tail =
      RT_FRAME :: (natLE 8 tid ++ (natLE 8 fid ++ (natLE 1 ACTION_PUSH ++ tail))) := by
    simp only [encodeRecord, List.cons_append, List.nil_append, List.append_assoc]
  rw [hshape]
  conv_lhs => unfold nextAux
  rw [readByte_cons]
  simp only [leToNat_single]
  rw [parseFrame_encode st tid fid ACTION_PUSH tail h1 h2 (by norm_num [ACTION_PUSH])]
  norm_num [RT_ALLOCATION, RT_FRAME, ACTION_PUSH, ACTION_POP]

theorem nextAux_encode_pop (st : RecordReader) (fuel : Nat) (tid : Nat) (tail : List Nat)
    (h1 : tid < 256 ^ 8) :
    nextAux st (fuel + 1) (encodeRecord (.framePop tid) ++ tail) =
      nextAux { st with d_stack_traces := aset tid ((alookup tid st.d_stack_traces).getD []).dropLast st.d_stack_traces } fuel tail := by
  have hshape : encodeRecord (.framePop tid) ++ tail =
      RT_FRAME :: (natLE 8 tid ++ (natLE 8 0 ++ (natLE 1 ACTION_POP ++ tail))) := by
    simp only [encodeRecord, List.cons_append, List.nil_append, List.append_assoc]
  rw [hshape]
  conv_lhs => unfold nextAux
  rw [readByte_cons]
  simp only [leToNat_single]
  rw [parseFrame_encode st tid 0 ACTION_POP tail h1 (by norm_num) (by norm_num [ACTION_POP])]
  norm_num [RT_ALLOCATION, RT_FRAME, ACTION_PUSH, ACTION_POP]

theorem nextAux_encode_frameIndex (st : RecordReader) (fuel : Nat) (fid : Nat)
    (fn file : List Nat) (pl : Nat) (tail : List Nat) (h1 : fid < 256 ^ 8)
    (h2 : ∀ b ∈ fn, b ≠ 0) (h3 : ∀ b ∈ file, b ≠ 0) (h4 : pl < 256 ^ 4) :
    nextAux st (fuel + 1) (encodeRecord (.frameIndex fid fn file pl) ++ tail) =
      (if (alookup fid st.d_frame_map).isSome then .error .duplicateFrameId
       else nextAux { st with d_frame_map := st.d_frame_map ++ [(fid, ⟨fn, file, pl, 0⟩)] } fuel tail) := by
  have hshape : encodeRecord (.frameIndex fid fn file pl) ++ tail =
      RT_FRAME_INDEX :: (natLE 8 fid ++ (fn ++ 0 :: (file ++ 0 :: (natLE 4 pl ++ tail)))) := by
    simp only [encodeRecord, List.cons_append, List.nil_append, List.append_assoc,
      List.singleton_append]
  rw [hshape]
  conv_lhs => unfold nextAux
  rw [readByte_cons]
  simp only [leToNat_single]
  rw [parseFrameIndex_encode st fid fn file pl tail h1 h2 h3 h4]
  by_cases hdup : (alookup fid st.d_frame_map).isSome
  · simp [hdup, RT_ALLOCATION, RT_FRAME, RT_FRAME_INDEX]
  · simp [hdup, RT_ALLOCATION, RT_FRAME, RT_FRAME_INDEX]

theorem nextAux_encode_nativeIndex (st : RecordReader) (fuel : Nat) (ip idx : Nat)
    (tail : List Nat) (h1 : ip < 256 ^ 8) (h2 : idx < 256 ^ 8) :
    nextAux st (fuel + 1) (encodeRecord (.nativeIndex ip idx) ++ tail) =
      nextAux { st with d_native_frames := st.d_native_frames ++ [⟨ip, idx⟩] } fuel tail := by
  have hshape : encodeRecord (.nativeIndex ip idx) ++ tail =
      RT_NATIVE_TRACE_INDEX :: (natLE 8 ip ++ (natLE 8 idx ++ tail)) := by
    simp only [encodeRecord, List.cons_append, List.nil_append, List.append_assoc]
  rw [hshape]
  conv_lhs => unfold nextAux
  rw [readByte_cons]
  simp only [leToNat_single]
  rw [parseNativeFrameIndex_encode st ip idx tail h1 h2]
  norm_num [RT_ALLOCATION, RT_FRAME, RT_FRAME_INDEX, RT_NATIVE_TRACE_INDEX]

theorem nextAux_encode_memoryMap (st : RecordReader) (fuel : Nat) (tail : List Nat) :
    nextAux st (fuel + 1) (encodeRecord .memoryMapStart ++ tail) =
      nextAux { st with d_symbol_resolver := st.d_symbol_resolver.clearSegments } fuel tail := by
  have hshape : encodeRecord .memoryMapStart ++ tail = RT_MEMORY_MAP_START :: tail := by
    simp only [encodeRecord, List.cons_append, List.nil_append]
  rw [hshape]
  conv_lhs => unfold nextAux
  rw [readByte_cons]
  simp only [leToNat_single]
  norm_num [RT_ALLOCATION, RT_FRAME, RT_FRAME_INDEX, RT_NATIVE_TRACE_INDEX, RT_MEMORY_MAP_START]

theorem nextAux_encode_segmentHeader (st : RecordReader) (fuel : Nat) (file : List Nat)
    (addr : Nat) (segs : List Segment) (tail : List Nat) (h1 : ∀ b ∈ file, b ≠ 0)
    (h2 : segs.length < 256 ^ 8) (h3 : addr < 256 ^ 8)
    (h4 : ∀ s ∈ segs, s.vaddr < 256 ^ 8 ∧ s.memsz < 256 ^ 8) :
    nextAux st (fuel + 1) (encodeRecord (.segmentHeader file addr segs) ++ tail) =
      nextAux { st with d_symbol_resolver := st.d_symbol_resolver.addSegments file addr (List.replicate segs.length ⟨0, 0⟩ ++ segs) } fuel tail := by
  have hshape : encodeRecord (.segmentHeader file addr segs) ++ tail =
      RT_SEGMENT_HEADER :: (file ++ 0 :: (natLE 8 segs.length ++ (natLE 8 addr ++ (encodeSegments segs ++ tail)))) := by
    simp only [encodeRecord, List.cons_append, List.nil_append, List.append_assoc,
      List.singleton_append]
  rw [hshape]
  conv_lhs => unfold nextAux
  rw [readByte_cons]
  simp only [leToNat_single]
  rw [parseSegmentHeader_encode st file addr segs tail h1 h2 h3 h4]
  norm_num [RT_ALLOCATION, RT_FRAME, RT_FRAME_INDEX, RT_NATIVE_TRACE_INDEX,
    RT_MEMORY_MAP_START, RT_SEGMENT_HEADER]

theorem nextAux_encode_alloc (st : RecordReader) (fuel : Nat) (rec : AllocationRecord)
    (tail : List Nat) (h1 : rec.tid < 256 ^ 8) (h2 : rec.address < 256 ^ 8)
    (h3 : rec.size < 256 ^ 8) (h4 : rec.allocator < 256 ^ 1)
    (h5 : rec.native_frame_id < 256 ^ 8) (h6 : rec.py_lineno < 256 ^ 4) :
    nextAux st (fuel + 1) (encodeRecord (.allocation rec) ++ tail) =
      (match getAllocationFrameIndex st rec with
       | .error e => .error e
       | .ok (fidx, st') =>
         .ok (some { record := rec, frame_index := fidx,
                     native_segment_generation := st'.d_symbol_resolver.currentSegmentGeneration },
              st', tail)) := by
  have hshape : encodeRecord (.allocation rec) ++ tail =
      RT_ALLOCATION :: (natLE 8 rec.tid ++ (natLE 8 rec.address ++ (natLE 8 rec.size ++
        (natLE 1 rec.allocator ++ (natLE 8 rec.native_frame_id ++ (natLE 4 rec.py_lineno ++ tail)))))) := by
    simp only [encodeRecord, List.cons_append, List.nil_append, List.append_assoc]
  rw [hshape]
  conv_lhs => unfold nextAux
  rw [readByte_cons]
  simp only [leToNat_single]
  rw [parseAllocationRecord_encode rec tail h1 h2 h3 h4 h5 h6]
  norm_num [RT_ALLOCATION]

/-! ## Error characterization and frame effects of the parsers -/

theorem readBytes_error {n : Nat} {input : List Nat} {e : DecodeError}
    (h : readBytes n input = .error e) : e = .ioError := by
  unfold readBytes at h
  split at h
  · exact Except.noConfusion h
  · injection h with h
    exact h.symm

theorem readNat_error {w : Nat} {input : List Nat} {e : DecodeError}
    (h : readNat w input = .error e) : e = .ioError := by
  unfold readNat at h
  split at h
  · rename_i e0 h0
    injection h with h
    rw [← h]
    exact readBytes_error h0
  · exact Except.noConfusion h

theorem readCString_error {input : List Nat} {e : DecodeError}
    (h : readCString input = .error e) : e = .ioError := by
  unfold readCString at h
  split at h
  · injection h with h
    exact h.symm
  · exact Except.noConfusion h

theorem parseFrame_error {st : RecordReader} {input : List Nat} {e : DecodeError}
    (h : parseFrame st input = .error e) : e = .ioError := by
  unfold parseFrame at h
  split at h
  · rename_i e0 h0
    injection h with h
    rw [← h]
    exact readNat_error h0
  · rename_i tid r0 h0
    split at h
    · rename_i e0 h1
      injection h with h
      rw [← h]
      exact readNat_error h1
    · rename_i fid r1 h1
      split at h
      · rename_i e0 h2
        injection h with h
        rw [← h]
        exact readNat_error h2
      · rename_i act r2 h2
        split at h
        · exact Except.noConfusion h
        · split at h
          · exact Except.noConfusion h
          · exact Except.noConfusion h

theorem parseFrameIndex_error {st : RecordReader} {input : List Nat} {e : DecodeError}
    (h : parseFrameIndex st input = .error e) : e = .ioError ∨ e = .duplicateFrameId := by
  unfold parseFrameIndex at h
  split at h
  · rename_i e0 h0
    injection h with h
    exact Or.inl (h ▸ readNat_error h0)
  · rename_i fid r0 h0
    split at h
    · rename_i e0 h1
      injection h with h
      exact Or.inl (h ▸ readCString_error h1)
    · rename_i fn r1 h1
      split at h
      · rename_i e0 h2
        injection h with h
        exact Or.inl (h ▸ readCString_error h2)
      · rename_i file r2 h2
        split at h
        · rename_i e0 h3
          injection h with h
          exact Or.inl (h ▸ readNat_error h3)
        · rename_i pl r3 h3
          split at h
          · injection h with h
            exact Or.inr h.symm
          · exact Except.noConfusion h

theorem parseNativeFrameIndex_error {st : RecordReader} {input : List Nat} {e : DecodeError}
    (h : parseNativeFrameIndex st input = .error e) : e = .ioError := by
  unfold parseNativeFrameIndex at h
  split at h
  · rename_i e0 h0
    injection h with h
    exact h ▸ readNat_error h0
  · rename_i ip r0 h0
    split at h
    · rename_i e0 h1
      injection h with h
      exact h ▸ readNat_error h1
    · exact Except.noConfusion h

theorem parseAllocationRecord_error {input : List Nat} {e : DecodeError}
    (h : parseAllocationRecord input = .error e) : e = .ioError := by
  unfold parseAllocationRecord at h
  split at h
  · rename_i e0 h0
    injection h with h
    exact h ▸ readNat_error h0
  · rename_i tid r0 h0
    split at h
    · rename_i e0 h1
      injection h with h
      exact h ▸ readNat_error h1
    · rename_i address r1 h1
      split at h
      · rename_i e0 h2
        injection h with h
        exact h ▸ readNat_error h2
      · rename_i size r2 h2
        split at h
        · rename_i e0 h3
          injection h with h
          exact h ▸ readNat_error h3
        · rename_i alc r3 h3
          split at h
          · rename_i e0 h4
            injection h with h
            exact h ▸ readNat_error h4
          · rename_i nfi r4 h4
            split at h
            · rename_i e0 h5
              injection h with h
              exact h ▸ readNat_error h5
            · exact Except.noConfusion h

theorem parseSegment_error {input : List Nat} {e : DecodeError}
    (h : parseSegment input = .error e) : e = .ioError := by
  unfold parseSegment at h
  split at h
  · rename_i e0 h0
    injection h with h
    exact h ▸ readNat_error h0
  · rename_i rt r0 h0
    split at h
    · rename_i e0 h1
      injection h with h
      exact h ▸ readNat_error h1
    · rename_i va r1 h1
      split at h
      · rename_i e0 h2
        injection h with h
        exact h ▸ readNat_error h2
      · exact Except.noConfusion h

theorem parseSegmentsInto_error {acc : List Segment} {n : Nat} {input : List Nat}
    {e : DecodeError} (h : parseSegmentsInto acc n input = .error e) : e = .ioError := by
  induction n generalizing acc input with
  | zero =>
    unfold parseSegmentsInto at h
    exact Except.noConfusion h
  | succ n ih =>
    unfold parseSegmentsInto at h
    split at h
    · rename_i e0 h0
      injection h with h
      exact h ▸ parseSegment_error h0
    · rename_i seg r0 h0
      exact ih h

theorem parseSegmentHeader_error {st : RecordReader} {input : List Nat} {e : DecodeError}
    (h : parseSegmentHeader st input = .error e) : e = .ioError := by
  unfold parseSegmentHeader at h
  split at h
  · rename_i e0 h0
    injection h with h
    exact h ▸ readCString_error h0
  · rename_i file r0 h0
    split at h
    · rename_i e0 h1
      injection h with h
      exact h ▸ readNat_error h1
    · rename_i ns r1 h1
      split at h
      · rename_i e0 h2
        injection h with h
        exact h ▸ readNat_error h2
      · rename_i addr r2 h2
        split at h
        · rename_i e0 h3
          injection h with h
          exact h ▸ parseSegmentsInto_error h3
        · exact Except.noConfusion h

theorem correctAllocationFrame_error {st : RecordReader} {stack : List Nat} {lineno : Nat}
    {e : DecodeError} (h : correctAllocationFrame st stack lineno = .error e) :
    e = .frameNotFound := by
  unfold correctAllocationFrame at h
  split at h
  · exact Except.noConfusion h
  · rename_i t ht
    split at h
    · injection h with h
      exact h.symm
    · rename_i pf hpf
      exact Except.noConfusion h

theorem getAllocationFrameIndex_error {st : RecordReader} {rec : AllocationRecord}
    {e : DecodeError} (h : getAllocationFrameIndex st rec = .error e) :
    e = .frameNotFound := by
  unfold getAllocationFrameIndex at h
  split at h
  · exact Except.noConfusion h
  · rename_i s hs
    split at h
    · rename_i e0 h0
      injection h with h
      exact h ▸ correctAllocationFrame_error h0
    · rename_i s' st1 h0
      exact Except.noConfusion h

/-! ## Header immutability through the record loop -/

theorem parseFrame_header {st st' : RecordReader} {input rest : List Nat}
    (h : parseFrame st input = .ok (st', rest)) : st'.d_header = st.d_header := by
  unfold parseFrame at h
  split at h <;> try exact Except.noConfusion h
  rename_i tid r0 h0
  split at h <;> try exact Except.noConfusion h
  rename_i fid r1 h1
  split at h <;> try exact Except.noConfusion h
  rename_i act r2 h2
  split at h
  · injection h with h
    injection h with ha hb
    rw [← ha]
  · split at h
    · injection h with h
      injection h with ha hb
      rw [← ha]
    · injection h with h
      injection h with ha hb
      rw [← ha]

theorem parseFrameIndex_header {st st' : RecordReader} {input rest : List Nat}
    (h : parseFrameIndex st input = .ok (st', rest)) : st'.d_header = st.d_header := by
  unfold parseFrameIndex at h
  split at h <;> try exact Except.noConfusion h
  rename_i fid r0 h0
  split at h <;> try exact Except.noConfusion h
  rename_i fn r1 h1
  split at h <;> try exact Except.noConfusion h
  rename_i file r2 h2
  split at h <;> try exact Except.noConfusion h
  rename_i pl r3 h3
  split at h
  · exact Except.noConfusion h
  · injection h with h
    injection h with ha hb
    rw [← ha]

theorem parseNativeFrameIndex_header {st st' : RecordReader} {input rest : List Nat}
    (h : parseNativeFrameIndex st input = .ok (st', rest)) : st'.d_header = st.d_header := by
  unfold parseNativeFrameIndex at h
  split at h <;> try exact Except.noConfusion h
  rename_i ip r0 h0
  split at h <;> try exact Except.noConfusion h
  rename_i idx r1 h1
  injection h with h
  injection h with ha hb
  rw [← ha]

theorem parseSegmentHeader_header {st st' : RecordReader} {input rest : List Nat}
    (h : parseSegmentHeader st input = .ok (st', rest)) : st'.d_header = st.d_header := by
  unfold parseSegmentHeader at h
  split at h <;> try exact Except.noConfusion h
  rename_i file r0 h0
  split at h <;> try exact Except.noConfusion h
  rename_i ns r1 h1
  split at h <;> try exact Except.noConfusion h
  rename_i addr r2 h2
  split at h <;> try exact Except.noConfusion h
  rename_i segs r3 h3
  injection h with h
  injection h with ha hb
  rw [← ha]

theorem correctAllocationFrame_header {st st1 : RecordReader} {stack s' : List Nat}
    {lineno : Nat} (h : correctAllocationFrame st stack lineno = .ok (s', st1)) :
    st1.d_header = st.d_header := by
  unfold correctAllocationFrame at h
  split at h
  · injection h with h
    injection h with ha hb
    rw [← hb]
  · rename_i t ht
    split at h
    · exact Except.noConfusion h
    · rename_i pf hpf
      injection h with h
      injection h with ha hb
      rw [← hb]

theorem getAllocationFrameIndex_header {st st' : RecordReader} {rec : AllocationRecord}
    {fidx : Nat} (h : getAllocationFrameIndex st rec = .ok (fidx, st')) :
    st'.d_header = st.d_header := by
  unfold getAllocationFrameIndex at h
  split at h
  · injection h with h
    injection h with ha hb
    rw [← hb]
  · rename_i s hs
    split at h
    · exact Except.noConfusion h
    · rename_i s' st1 h0
      injection h with h
      injection h with ha hb
      rw [← hb]
      simpa using correctAllocationFrame_header h0

/-! ## Global shape of the decode loop's results -/

theorem nextAux_cases : ∀ (fuel : Nat) (st : RecordReader) (input : List Nat),
    input.length < fuel →
    (∃ o st' rest, nextAux st fuel input = .ok (o, st', rest) ∧ st'.d_header = st.d_header ∧
      rest.length ≤ input.length ∧ (o.isSome = true → rest.length < input.length)) ∨
    (∃ e, nextAux st fuel input = .error e ∧ e ≠ .ioError ∧ e ≠ .outOfFuel) := by
  intro fuel
  induction fuel with
  | zero =>
    intro st input h
    omega
  | succ fuel ih =>
    intro st input hlen
    cases hr : readBytes 1 input with
    | error e =>
      left
      exact ⟨none, st, input, by simp only [nextAux]; rw [hr], rfl, Nat.le_refl _, by simp⟩
    | ok p =>
      obtain ⟨tb, r0⟩ := p
      have hr0 : r0.length + 1 = input.length := readBytes_length hr
      by_cases hA : leToNat tb = RT_ALLOCATION
      · cases hp : parseAllocationRecord r0 with
        | error e =>
          have he := parseAllocationRecord_error hp
          subst he
          left
          refine ⟨none, st, r0, ?_, rfl, by omega, by simp⟩
          simp only [nextAux]
          rw [hr]
          simp [RT_ALLOCATION, RT_FRAME, RT_FRAME_INDEX, RT_NATIVE_TRACE_INDEX, RT_MEMORY_MAP_START, RT_SEGMENT_HEADER, hA, hp]
        | ok q =>
          obtain ⟨rec, r1⟩ := q
          have hl1 : r1.length ≤ r0.length := parseAllocationRecord_length hp
          cases hg : getAllocationFrameIndex st rec with
          | error e =>
            have he := getAllocationFrameIndex_error hg
            subst he
            right
            refine ⟨.frameNotFound, ?_, by simp, by simp⟩
            simp only [nextAux]
            rw [hr]
            simp [RT_ALLOCATION, RT_FRAME, RT_FRAME_INDEX, RT_NATIVE_TRACE_INDEX, RT_MEMORY_MAP_START, RT_SEGMENT_HEADER, hA, hp, hg]
          | ok q2 =>
            obtain ⟨fidx, st'⟩ := q2
            left
            refine ⟨some ⟨rec, fidx, st'.d_symbol_resolver.currentSegmentGeneration⟩,
              st', r1, ?_, getAllocationFrameIndex_header hg, by omega, fun _ => by omega⟩
            simp only [nextAux]
            rw [hr]
            simp [RT_ALLOCATION, RT_FRAME, RT_FRAME_INDEX, RT_NATIVE_TRACE_INDEX, RT_MEMORY_MAP_START, RT_SEGMENT_HEADER, hA, hp, hg]
      · by_cases hF : leToNat tb = RT_FRAME
        · cases hp : parseFrame st r0 with
          | error e =>
            have he := parseFrame_error hp
            subst he
            left
            refine ⟨none, st, r0, ?_, rfl, by omega, by simp⟩
            simp only [nextAux]
            rw [hr]
            simp [RT_ALLOCATION, RT_FRAME, RT_FRAME_INDEX, RT_NATIVE_TRACE_INDEX, RT_MEMORY_MAP_START, RT_SEGMENT_HEADER, hA, hF, hp]
          | ok q =>
            obtain ⟨st1, r1⟩ := q
            have hl1 : r1.length ≤ r0.length := parseFrame_length hp
            have heq : nextAux st (fuel + 1) input = nextAux st1 fuel r1 := by
              simp only [nextAux]
              rw [hr]
              simp [RT_ALLOCATION, RT_FRAME, RT_FRAME_INDEX, RT_NATIVE_TRACE_INDEX, RT_MEMORY_MAP_START, RT_SEGMENT_HEADER, hA, hF, hp]
            rcases ih st1 r1 (by omega) with ⟨o, st', rest, heq2, hh, hle, hs⟩ | ⟨e, heq2, hne⟩
            · left
              exact ⟨o, st', rest, heq.trans heq2,
                hh.trans (parseFrame_header hp), by omega, fun _ => by omega⟩
            · right
              exact ⟨e, heq.trans heq2, hne⟩
        · by_cases hFI : leToNat tb = RT_FRAME_INDEX
          · cases hp : parseFrameIndex st r0 with
            | error e =>
              rcases parseFrameIndex_error hp with he | he
              · subst he
                left
                refine ⟨none, st, r0, ?_, rfl, by omega, by simp⟩
                simp only [nextAux]
                rw [hr]
                simp [RT_ALLOCATION, RT_FRAME, RT_FRAME_INDEX, RT_NATIVE_TRACE_INDEX, RT_MEMORY_MAP_START, RT_SEGMENT_HEADER, hA, hF, hFI, hp]
              · subst he
                right
                refine ⟨.duplicateFrameId, ?_, by simp, by simp⟩
                simp only [nextAux]
                rw [hr]
                simp [RT_ALLOCATION, RT_FRAME, RT_FRAME_INDEX, RT_NATIVE_TRACE_INDEX, RT_MEMORY_MAP_START, RT_SEGMENT_HEADER, hA, hF, hFI, hp]
            | ok q =>
              obtain ⟨st1, r1⟩ := q
              have hl1 : r1.length ≤ r0.length := parseFrameIndex_length hp
              have heq : nextAux st (fuel + 1) input = nextAux st1 fuel r1 := by
                simp only [nextAux]
                rw [hr]
                simp [RT_ALLOCATION, RT_FRAME, RT_FRAME_INDEX, RT_NATIVE_TRACE_INDEX, RT_MEMORY_MAP_START, RT_SEGMENT_HEADER, hA, hF, hFI, hp]
              rcases ih st1 r1 (by omega) with ⟨o, st', rest, heq2, hh, hle, hs⟩ | ⟨e, heq2, hne⟩
              · left
                exact ⟨o, st', rest, heq.trans heq2,
                  hh.trans (parseFrameIndex_header hp), by omega, fun _ => by omega⟩
              · right
                exact ⟨e, heq.trans heq2, hne⟩
          · by_cases hNI : leToNat tb = RT_NATIVE_TRACE_INDEX
            · cases hp : parseNativeFrameIndex st r0 with
              | error e =>
                have he := parseNativeFrameIndex_error hp
                subst he
                left
                refine ⟨none, st, r0, ?_, rfl, by omega, by simp⟩
                simp only [nextAux]
                rw [hr]
                simp [RT_ALLOCATION, RT_FRAME, RT_FRAME_INDEX, RT_NATIVE_TRACE_INDEX, RT_MEMORY_MAP_START, RT_SEGMENT_HEADER, hA, hF, hFI, hNI, hp]
              | ok q =>
                obtain ⟨st1, r1⟩ := q
                have hl1 : r1.length ≤ r0.length := parseNativeFrameIndex_length hp
                have heq : nextAux st (fuel + 1) input = nextAux st1 fuel r1 := by
                  simp only [nextAux]
                  rw [hr]
                  simp [RT_ALLOCATION, RT_FRAME, RT_FRAME_INDEX, RT_NATIVE_TRACE_INDEX, RT_MEMORY_MAP_START, RT_SEGMENT_HEADER, hA, hF, hFI, hNI, hp]
                rcases ih st1 r1 (by omega) with ⟨o, st', rest, heq2, hh, hle, hs⟩ | ⟨e, heq2, hne⟩
                · left
                  exact ⟨o, st', rest, heq.trans heq2,
                    hh.trans (parseNativeFrameIndex_header hp), by omega, fun _ => by omega⟩
                · right
                  exact ⟨e, heq.trans heq2, hne⟩
            · by_cases hMM : leToNat tb = RT_MEMORY_MAP_START
              · have heq : nextAux st (fuel + 1) input =
                    nextAux { st with d_symbol_resolver := st.d_symbol_resolver.clearSegments } fuel r0 := by
                  simp only [nextAux]
                  rw [hr]
                  simp [RT_ALLOCATION, RT_FRAME, RT_FRAME_INDEX, RT_NATIVE_TRACE_INDEX, RT_MEMORY_MAP_START, RT_SEGMENT_HEADER, hA, hF, hFI, hNI, hMM]
                rcases ih _ r0 (by omega) with ⟨o, st', rest, heq2, hh, hle, hs⟩ | ⟨e, heq2, hne⟩
                · left
                  exact ⟨o, st', rest, heq.trans heq2, hh, by omega, fun _ => by omega⟩
                · right
                  exact ⟨e, heq.trans heq2, hne⟩
              · by_cases hSH : leToNat tb = RT_SEGMENT_HEADER
                · cases hp : parseSegmentHeader st r0 with
                  | error e =>
                    have he := parseSegmentHeader_error hp
                    subst he
                    left
                    refine ⟨none, st, r0, ?_, rfl, by omega, by simp⟩
                    simp only [nextAux]
                    rw [hr]
                    simp [RT_ALLOCATION, RT_FRAME, RT_FRAME_INDEX, RT_NATIVE_TRACE_INDEX, RT_MEMORY_MAP_START, RT_SEGMENT_HEADER, hA, hF, hFI, hNI, hMM, hSH, hp]
                  | ok q =>
                    obtain ⟨st1, r1⟩ := q
                    have hl1 : r1.length ≤ r0.length := parseSegmentHeader_length hp
                    have heq : nextAux st (fuel + 1) input = nextAux st1 fuel r1 := by
                      simp only [nextAux]
                      rw [hr]
                      simp [RT_ALLOCATION, RT_FRAME, RT_FRAME_INDEX, RT_NATIVE_TRACE_INDEX, RT_MEMORY_MAP_START, RT_SEGMENT_HEADER, hA, hF, hFI, hNI, hMM, hSH, hp]
                    rcases ih st1 r1 (by omega) with ⟨o, st', rest, heq2, hh, hle, hs⟩ | ⟨e, heq2, hne⟩
                    · left
                      exact ⟨o, st', rest, heq.trans heq2,
                        hh.trans (parseSegmentHeader_header hp), by omega, fun _ => by omega⟩
                    · right
                      exact ⟨e, heq.trans heq2, hne⟩
                · right
                  refine ⟨.invalidRecord, ?_, by simp, by simp⟩
                  simp only [nextAux]
                  rw [hr]
                  simp only [RT_ALLOCATION, RT_FRAME, RT_FRAME_INDEX, RT_NATIVE_TRACE_INDEX, RT_MEMORY_MAP_START, RT_SEGMENT_HEADER] at hA hF hFI hNI hMM hSH
                  simp [RT_ALLOCATION, RT_FRAME, RT_FRAME_INDEX, RT_NATIVE_TRACE_INDEX, RT_MEMORY_MAP_START, RT_SEGMENT_HEADER, hA, hF, hFI, hNI, hMM, hSH]

/-! ## Association list and synthesized-frame table lemmas -/

theorem alookup_aset_self (k : Nat) (v : α) (m : List (Nat × α)) :
    alookup k (aset k v m) = some v := by
  induction m with
  | nil => simp [aset, alookup]
  | cons p m ih =>
    obtain ⟨k', v'⟩ := p
    by_cases hk : k = k'
    · simp [aset, hk, alookup]
    · simp [aset, hk, alookup, ih]

theorem alookup_aset_ne (k k' : Nat) (v : α) (m : List (Nat × α)) (h : k ≠ k') :
    alookup k (aset k' v m) = alookup k m := by
  induction m with
  | nil => simp [aset, alookup, h]
  | cons p m ih =>
    obtain ⟨k2, v2⟩ := p
    by_cases hk : k' = k2
    · subst hk
      simp [aset, alookup, h]
    · by_cases hkk : k = k2
      · simp [aset, hk, alookup, hkk]
      · simp [aset, hk, alookup, hkk, ih]

theorem aset_self (k : Nat) (v : α) (m : List (Nat × α)) (h : alookup k m = some v) :
    aset k v m = m := by
  induction m with
  | nil => simp [alookup] at h
  | cons p m ih =>
    obtain ⟨k', v'⟩ := p
    by_cases hk : k = k'
    · subst hk
      simp [alookup] at h
      simp [aset, h]
    · simp [alookup, hk] at h
      simp [aset, hk, ih h]

theorem alookup_append_some {k : Nat} {v : α} {m : List (Nat × α)} (l : List (Nat × α))
    (h : alookup k m = some v) : alookup k (m ++ l) = some v := by
  induction m with
  | nil => simp [alookup] at h
  | cons p m ih =>
    obtain ⟨k', v'⟩ := p
    by_cases hk : k = k'
    · simp [alookup, hk] at h ⊢
      exact h
    · simp [alookup, hk] at h ⊢
      exact ih h

theorem alookup_append_none {k : Nat} {m : List (Nat × α)} (l : List (Nat × α))
    (h : alookup k m = none) : alookup k (m ++ l) = alookup k l := by
  induction m with
  | nil => simp
  | cons p m ih =>
    obtain ⟨k', v'⟩ := p
    by_cases hk : k = k'
    · simp [alookup, hk] at h
    · simp [alookup, hk] at h ⊢
      exact ih h

theorem alookup_isSome_append {k : Nat} {m : List (Nat × α)} (l : List (Nat × α))
    (h : (alookup k m).isSome = true) : (alookup k (m ++ l)).isSome = true := by
  cases hm : alookup k m with
  | none => rw [hm] at h; simp at h
  | some v => simp [alookup_append_some l hm]

/-- Keys of the synthesized-frame table at consecutive positions from `n`:
position `i` holds key `2 * (n + i) + 1`. -/
def OddKeys : Nat → List (Nat × Frame) → Prop
  | _, [] => True
  | n, (k, _) :: rest => k = 2 * n + 1 ∧ OddKeys (n + 1) rest

theorem OddKeys_append (n : Nat) (coll : List (Nat × Frame)) (f : Frame)
    (h : OddKeys n coll) :
    OddKeys n (coll ++ [(2 * (n + coll.length) + 1, f)]) := by
  induction coll generalizing n with
  | nil => simp [OddKeys]
  | cons p coll ih =>
    obtain ⟨k, g⟩ := p
    obtain ⟨hk, hrest⟩ := h
    refine ⟨hk, ?_⟩
    have := ih (n + 1) hrest
    simpa [Nat.add_assoc, Nat.add_comm, Nat.add_left_comm] using this

theorem OddKeys_mem_odd {n : Nat} {coll : List (Nat × Frame)} {k : Nat} {f : Frame}
    (h : OddKeys n coll) (hm : (k, f) ∈ coll) : k % 2 = 1 := by
  induction coll generalizing n with
  | nil => simp at hm
  | cons p coll ih =>
    obtain ⟨k', g⟩ := p
    obtain ⟨hk, hrest⟩ := h
    rcases List.mem_cons.mp hm with he | hm'
    · injection he with h1 h2
      omega
    · exact ih hrest hm'

theorem collFindKey_mem {f : Frame} {coll : List (Nat × Frame)} {k : Nat}
    (h : collFindKey f coll = some k) : (k, f) ∈ coll := by
  induction coll with
  | nil => simp [collFindKey] at h
  | cons p coll ih =>
    obtain ⟨k', g⟩ := p
    by_cases hg : g = f
    · simp [collFindKey, hg] at h
      subst h
      subst hg
      exact List.mem_cons_self _ _
    · simp [collFindKey, hg] at h
      exact List.mem_cons_of_mem _ (ih h)

theorem OddKeys_mem_lt {n : Nat} {coll : List (Nat × Frame)} {k : Nat} {f : Frame}
    (h : OddKeys n coll) (hm : (k, f) ∈ coll) : k < 2 * (n + coll.length) + 1 := by
  induction coll generalizing n with
  | nil => simp at hm
  | cons p coll ih =>
    obtain ⟨k', g⟩ := p
    obtain ⟨hk, hrest⟩ := h
    rcases List.mem_cons.mp hm with he | hm'
    · injection he with h1 h2
      subst h1
      simp
      omega
    · have := ih hrest hm'
      simp at this ⊢
      omega

/-- Everything `correctAllocationFrame` guarantees on a non-empty stack
whose top is a defined frame, under the synthesized-table invariants: the
top is replaced by a synthesized odd identifier mapping in the frame map
to the partial frame with the allocation's line filled in, the frame map
only grows, and even keys are untouched. -/
theorem correctAllocationFrame_spec (st : RecordReader) (s : List Nat) (lineno : Nat)
    (t : Nat) (hlast : s.getLast? = some t) (pf : Frame)
    (hpf : alookup t st.d_frame_map = some pf)
    (hodd : OddKeys 0 st.d_allocation_frames)
    (hc : ∀ k f, (k, f) ∈ st.d_allocation_frames → alookup k st.d_frame_map = some f)
    (hof : ∀ k, k % 2 = 1 → (alookup k st.d_frame_map).isSome = true →
      ∃ f, (k, f) ∈ st.d_allocation_frames) :
    ∃ idx st', correctAllocationFrame st s lineno = .ok (s.dropLast ++ [idx], st') ∧
      st'.d_stack_traces = st.d_stack_traces ∧
      st'.d_tree = st.d_tree ∧
      st'.d_native_frames = st.d_native_frames ∧
      st'.d_symbol_resolver = st.d_symbol_resolver ∧
      st'.d_header = st.d_header ∧
      OddKeys 0 st'.d_allocation_frames ∧
      (∀ k f, (k, f) ∈ st'.d_allocation_frames → alookup k st'.d_frame_map = some f) ∧
      (∀ k, k % 2 = 1 → (alookup k st'.d_frame_map).isSome = true →
        ∃ f, (k, f) ∈ st'.d_allocation_frames) ∧
      (∀ k v, alookup k st.d_frame_map = some v → alookup k st'.d_frame_map = some v) ∧
      (∀ k, k % 2 = 0 → alookup (α := Frame) k st'.d_frame_map = alookup k st.d_frame_map) ∧
      idx % 2 = 1 ∧
      alookup idx st'.d_frame_map = some ⟨pf.function_name, pf.filename, pf.parent_lineno, lineno⟩ := by
  unfold correctAllocationFrame
  rw [hlast]
  simp only []
  rw [hpf]
  simp only []
  cases hfind : collFindKey ⟨pf.function_name, pf.filename, pf.parent_lineno, lineno⟩
      st.d_allocation_frames with
  | some k =>
    have hmem := collFindKey_mem hfind
    have hkodd := OddKeys_mem_odd hodd hmem
    have hksome := hc _ _ hmem
    refine ⟨k, _, ?_, rfl, rfl, rfl, rfl, rfl, hodd, hc, hof, fun k' v' hv' => hv',
      fun k' _ => rfl, hkodd, hksome⟩
    simp [collGetIndex, hfind]
  | none =>
    set af : Frame := ⟨pf.function_name, pf.filename, pf.parent_lineno, lineno⟩ with haf
    set idx : Nat := 2 * st.d_allocation_frames.length + 1 with hidx
    have hfresh : alookup idx st.d_frame_map = none := by
      cases hfm : alookup idx st.d_frame_map with
      | none => rfl
      | some v =>
        obtain ⟨f, hf⟩ := hof idx (by omega) (by simp [hfm])
        have := OddKeys_mem_lt hodd hf
        omega
    have hemp : aemplace idx af st.d_frame_map = st.d_frame_map ++ [(idx, af)] := by
      simp [aemplace, hfresh]
    refine ⟨idx, { st with d_frame_map := st.d_frame_map ++ [(idx, af)], d_allocation_frames := st.d_allocation_frames ++ [(idx, af)] }, ?_, rfl, rfl, rfl, rfl, rfl, ?_, ?_, ?_, ?_, ?_, by omega, ?_⟩
    · simp [collGetIndex, hfind, hemp, hidx]
    · simpa [hidx] using OddKeys_append 0 st.d_allocation_frames af hodd
    · intro k f hm
      simp only [hemp]
      rcases List.mem_append.mp hm with hm' | hm'
      · exact alookup_append_some _ (hc k f hm')
      · simp at hm'
        obtain ⟨h1, h2⟩ := hm'
        subst h1
        subst h2
        rw [alookup_append_none _ hfresh]
        simp [alookup]
    · intro k hk hsome
      simp only [hemp] at hsome
      by_cases hkidx : k = idx
      · exact ⟨af, by simp [hkidx, List.mem_append]⟩
      · cases hfm : alookup k st.d_frame_map with
        | some v =>
          obtain ⟨f, hf⟩ := hof k hk (by simp [hfm])
          exact ⟨f, List.mem_append_left _ hf⟩
        | none =>
          rw [alookup_append_none _ hfm] at hsome
          simp [alookup, hkidx] at hsome
    · intro k v hv
      simp only [hemp]
      exact alookup_append_some _ hv
    · intro k hk
      simp only [hemp]
      cases hfm : alookup k st.d_frame_map with
      | some v => exact alookup_append_some _ hfm
      | none =>
        rw [alookup_append_none _ hfm]
        have : k ≠ idx := by omega
        simp [alookup, this]
    · simp only [hemp]
      rw [alookup_append_none _ hfresh]
      simp [alookup]

theorem getLastq_mem {l : List Nat} {x : Nat} (h : l.getLast? = some x) : x ∈ l := by
  have hx : x ∈ l.getLast? := by rw [h]; rfl
  obtain ⟨hne, he⟩ := List.mem_getLast?_eq_getLast hx
  rw [he]
  exact List.getLast_mem hne

theorem getLastq_ne_nil {l : List Nat} {x : Nat} (h : l.getLast? = some x) : l ≠ [] := by
  intro he
  subst he
  simp at h

/-! ## The decoder/writer simulation invariant -/

/-- The relation between the writer-side view (`WfState`) of a well-formed
trace and the decoder state: record-defined identifiers are even and are
exactly the even keys of the frame map; synthesized identifiers are odd,
numbered consecutively, and registered in the frame map with their
content; every identifier on any simulated stack is defined; and the
simulated stacks have the lengths the writer produced. -/
structure DecInv (w : WfState) (st : RecordReader) : Prop where
  ids_even : ∀ k ∈ w.ids, k % 2 = 0
  even_ids : ∀ k, k % 2 = 0 → ((alookup k st.d_frame_map).isSome = true ↔ k ∈ w.ids)
  odd_coll : OddKeys 0 st.d_allocation_frames
  coll_sub : ∀ k f, (k, f) ∈ st.d_allocation_frames → alookup k st.d_frame_map = some f
  odd_from_coll : ∀ k, k % 2 = 1 → (alookup k st.d_frame_map).isSome = true →
    ∃ f, (k, f) ∈ st.d_allocation_frames
  stack_mem : ∀ tid s, alookup tid st.d_stack_traces = some s →
    ∀ e ∈ s, (alookup e st.d_frame_map).isSome = true
  stack_len : ∀ tid, (alookup tid st.d_stack_traces).map List.length =
    (alookup tid w.thread_stacks).map List.length

theorem DecInv_init (hdr : HeaderRecord) : DecInv ⟨[], []⟩ (initReader hdr) := by
  refine ⟨?_, ?_, ?_, ?_, ?_, ?_, ?_⟩
  · intro k hk
    simp at hk
  · intro k _
    simp [initReader, alookup]
  · exact trivial
  · intro k f hm
    simp [initReader] at hm
  · intro k _ hs
    simp [initReader, alookup] at hs
  · intro tid s hs
    simp [initReader, alookup] at hs
  · intro tid
    simp [initReader, alookup]

/-- Processing an allocation record always succeeds under the invariant,
and preserves it: the only state changes are the in-place line correction
of the thread's stack (length-preserving) and growth of the frame tables
and the deduplication tree. -/
theorem getAllocationFrameIndex_spec (w : WfState) (st : RecordReader)
    (rec : AllocationRecord) (hinv : DecInv w st) :
    ∃ fidx st', getAllocationFrameIndex st rec = .ok (fidx, st') ∧ DecInv w st' ∧
      st'.d_header = st.d_header ∧
      st'.d_symbol_resolver = st.d_symbol_resolver := by
  unfold getAllocationFrameIndex
  cases hs : alookup rec.tid st.d_stack_traces with
  | none => exact ⟨0, st, rfl, hinv, rfl, rfl⟩
  | some s =>
    cases hsl : s.getLast? with
    | none =>
      have hnil : s = [] := List.getLast?_eq_none_iff.mp hsl
      subst hnil
      have hcorr : correctAllocationFrame st [] rec.py_lineno = .ok ([], st) := by
        unfold correctAllocationFrame
        rfl
      simp only []
      rw [hcorr]
      simp only []
      rw [aset_self rec.tid [] st.d_stack_traces hs]
      exact ⟨0, st, rfl, hinv, rfl, rfl⟩
    | some t =>
      have htmem : t ∈ s := getLastq_mem hsl
      have htsome := hinv.stack_mem rec.tid s hs t htmem
      obtain ⟨pf, hpf⟩ := Option.isSome_iff_exists.mp htsome
      obtain ⟨idx, st1, hceq, hst, htr, hnf, hres, hhd, hodd1, hsub1, hofc1, hmono, heven,
        hoddidx, hidxval⟩ :=
        correctAllocationFrame_spec st s rec.py_lineno t hsl pf hpf hinv.odd_coll
          hinv.coll_sub hinv.odd_from_coll
      simp only []
      rw [hceq]
      simp only []
      rcases hgt : FrameTree.getTraceIndex st1.d_tree (s.dropLast ++ [idx]) with ⟨t2, fidx⟩
      refine ⟨fidx, { st1 with d_stack_traces := aset rec.tid (s.dropLast ++ [idx]) st1.d_stack_traces, d_tree := t2 }, ?_, ?_, ?_, ?_⟩
      · rfl
      case refine_3 => simp [hhd]
      case refine_4 => simp [hres]
      · constructor
        · exact hinv.ids_even
        · intro k hk
          simp only []
          rw [heven k hk]
          exact hinv.even_ids k hk
        · exact hodd1
        · exact hsub1
        · exact hofc1
        · intro tid s2 hs2
          simp only [] at hs2
          by_cases htid : tid = rec.tid
          · subst htid
            rw [hst, alookup_aset_self] at hs2
            injection hs2 with hs2
            subst hs2
            intro e he
            rcases List.mem_append.mp he with he' | he'
            · have hesome := hinv.stack_mem rec.tid s hs e (List.mem_of_mem_dropLast he')
              obtain ⟨v, hv⟩ := Option.isSome_iff_exists.mp hesome
              simp [hmono e v hv]
            · simp at he'
              subst he'
              simp [hidxval]
          · rw [hst, alookup_aset_ne _ _ _ _ htid] at hs2
            intro e he
            have hesome := hinv.stack_mem tid s2 hs2 e he
            obtain ⟨v, hv⟩ := Option.isSome_iff_exists.mp hesome
            simp [hmono e v hv]
        · intro tid
          simp only []
          by_cases htid : tid = rec.tid
          · subst htid
            rw [hst, alookup_aset_self]
            rw [← hinv.stack_len rec.tid, hs]
            have hne := getLastq_ne_nil hsl
            simp [List.length_dropLast]
            have : 1 ≤ s.length := by
              cases s with
              | nil => exact absurd rfl hne
              | cons a l => simp
            omega
          · rw [hst, alookup_aset_ne _ _ _ _ htid]
            exact hinv.stack_len tid

theorem map_length_getD {A B : List (Nat × List Nat)} {tid : Nat}
    (h : (alookup tid A).map List.length = (alookup tid B).map List.length) :
    ((alookup tid A).getD []).length = ((alookup tid B).getD []).length := by
  cases ha : alookup tid A with
  | none =>
    cases hb : alookup tid B with
    | none => simp
    | some sb => rw [ha, hb] at h; simp at h
  | some sa =>
    cases hb : alookup tid B with
    | none => rw [ha, hb] at h; simp at h
    | some sb =>
      rw [ha, hb] at h
      simp at h
      simpa using h

theorem DecInv_push (w : WfState) (st : RecordReader) (tid fid : Nat) (hinv : DecInv w st)
    (hmem : fid ∈ w.ids) :
    DecInv (wfStep w (.framePush tid fid))
      { st with d_stack_traces := aset tid ((alookup tid st.d_stack_traces).getD [] ++ [fid]) st.d_stack_traces } := by
  have hfeven := hinv.ids_even fid hmem
  have hfsome : (alookup fid st.d_frame_map).isSome = true :=
    (hinv.even_ids fid hfeven).mpr hmem
  refine ⟨hinv.ids_even, hinv.even_ids, hinv.odd_coll, hinv.coll_sub, hinv.odd_from_coll, ?_, ?_⟩
  · intro tid' s hs e he
    simp only [] at hs
    by_cases ht : tid' = tid
    · subst ht
      rw [alookup_aset_self] at hs
      injection hs with hs
      subst hs
      rcases List.mem_append.mp he with he' | he'
      · cases hold : alookup tid' st.d_stack_traces with
        | none => rw [hold] at he'; simp at he'
        | some sold =>
          rw [hold] at he'
          exact hinv.stack_mem tid' sold hold e he'
      · simp at he'
        subst he'
        exact hfsome
    · rw [alookup_aset_ne _ _ _ _ ht] at hs
      exact hinv.stack_mem tid' s hs e he
  · intro tid'
    simp only [wfStep]
    by_cases ht : tid' = tid
    · subst ht
      rw [alookup_aset_self, alookup_aset_self]
      simp [map_length_getD (hinv.stack_len tid')]
    · rw [alookup_aset_ne _ _ _ _ ht, alookup_aset_ne _ _ _ _ ht]
      exact hinv.stack_len tid'

theorem DecInv_pop (w : WfState) (st : RecordReader) (tid : Nat) (hinv : DecInv w st) :
    DecInv (wfStep w (.framePop tid))
      { st with d_stack_traces := aset tid ((alookup tid st.d_stack_traces).getD []).dropLast st.d_stack_traces } := by
  refine ⟨hinv.ids_even, hinv.even_ids, hinv.odd_coll, hinv.coll_sub, hinv.odd_from_coll, ?_, ?_⟩
  · intro tid' s hs e he
    simp only [] at hs
    by_cases ht : tid' = tid
    · subst ht
      rw [alookup_aset_self] at hs
      injection hs with hs
      subst hs
      have he' := List.mem_of_mem_dropLast he
      cases hold : alookup tid' st.d_stack_traces with
      | none => rw [hold] at he'; simp at he'
      | some sold =>
        rw [hold] at he'
        exact hinv.stack_mem tid' sold hold e he'
    · rw [alookup_aset_ne _ _ _ _ ht] at hs
      exact hinv.stack_mem tid' s hs e he
  · intro tid'
    simp only [wfStep]
    by_cases ht : tid' = tid
    · subst ht
      rw [alookup_aset_self, alookup_aset_self]
      simp [List.length_dropLast, map_length_getD (hinv.stack_len tid')]
    · rw [alookup_aset_ne _ _ _ _ ht, alookup_aset_ne _ _ _ _ ht]
      exact hinv.stack_len tid'

theorem DecInv_frameIndex (w : WfState) (st : RecordReader) (fid : Nat) (fr : Frame)
    (hinv : DecInv w st) (heven : fid % 2 = 0) (hnot : fid ∉ w.ids) :
    DecInv { w with ids := w.ids ++ [fid] }
      { st with d_frame_map := st.d_frame_map ++ [(fid, fr)] } := by
  have hfidnone : alookup fid st.d_frame_map = none := by
    cases hf : alookup fid st.d_frame_map with
    | none => rfl
    | some v =>
      exact absurd ((hinv.even_ids fid heven).mp (by simp [hf])) hnot
  refine ⟨?_, ?_, hinv.odd_coll, ?_, ?_, ?_, hinv.stack_len⟩
  · intro k hk
    rcases List.mem_append.mp hk with hk' | hk'
    · exact hinv.ids_even k hk'
    · simp at hk'
      subst hk'
      exact heven
  · intro k hkeven
    simp only []
    constructor
    · intro hsome
      cases hf : alookup k st.d_frame_map with
      | some v =>
        exact List.mem_append_left _ ((hinv.even_ids k hkeven).mp (by simp [hf]))
      | none =>
        rw [alookup_append_none _ hf] at hsome
        by_cases hkf : k = fid
        · subst hkf
          simp
        · simp [alookup, hkf] at hsome
    · intro hmem
      rcases List.mem_append.mp hmem with hk' | hk'
      · have := (hinv.even_ids k hkeven).mpr hk'
        exact alookup_isSome_append _ this
      · simp at hk'
        subst hk'
        rw [alookup_append_none _ hfidnone]
        simp [alookup]
  · intro k f hm
    exact alookup_append_some _ (hinv.coll_sub k f hm)
  · intro k hk hsome
    cases hf : alookup k st.d_frame_map with
    | some v =>
      exact hinv.odd_from_coll k hk (by simp [hf])
    | none =>
      rw [alookup_append_none _ hf] at hsome
      by_cases hkf : k = fid
      · subst hkf
        omega
      · simp [alookup, hkf] at hsome
  · intro tid s hs e he
    exact alookup_isSome_append _ (hinv.stack_mem tid s hs e he)

theorem DecInv_native (w : WfState) (st : RecordReader) (nf : UnresolvedNativeFrame)
    (hinv : DecInv w st) :
    DecInv w { st with d_native_frames := st.d_native_frames ++ [nf] } :=
  ⟨hinv.ids_even, hinv.even_ids, hinv.odd_coll, hinv.coll_sub, hinv.odd_from_coll,
    hinv.stack_mem, hinv.stack_len⟩

theorem DecInv_resolver (w : WfState) (st : RecordReader) (r : SymbolResolver)
    (hinv : DecInv w st) :
    DecInv w { st with d_symbol_resolver := r } :=
  ⟨hinv.ids_even, hinv.even_ids, hinv.odd_coll, hinv.coll_sub, hinv.odd_from_coll,
    hinv.stack_mem, hinv.stack_len⟩

theorem lt64 {n : Nat} (h : n < 2 ^ 64) : n < 256 ^ 8 := by
  have e : (2 : Nat) ^ 64 = 256 ^ 8 := by norm_num
  rw [← e]
  exact h

theorem lt8 {n : Nat} (h : n < 2 ^ 8) : n < 256 ^ 1 := by
  have e : (2 : Nat) ^ 8 = 256 ^ 1 := by norm_num
  rw [← e]
  exact h

theorem lt32 {n : Nat} (h : n < 2 ^ 32) : n < 256 ^ 4 := by
  have e : (2 : Nat) ^ 32 = 256 ^ 4 := by norm_num
  rw [← e]
  exact h

theorem strOk_ne {s : List Nat} (h : strOk s = true) : ∀ b ∈ s, b ≠ 0 := by
  intro b hb
  have := List.all_eq_true.mp h b hb
  simp at this
  omega

theorem encodeRecord_length_pos (r : TraceRecord) : 0 < (encodeRecord r).length := by
  cases r <;> simp [encodeRecord]

theorem splitAlloc_length {rs : List TraceRecord} {a : AllocationRecord}
    {post : List TraceRecord} (h : splitAlloc rs = some (a, post)) :
    (encodeTrace post).length < (encodeTrace rs).length := by
  induction rs with
  | nil => simp [splitAlloc] at h
  | cons r rs ih =>
    have hpos := encodeRecord_length_pos r
    cases r with
    | allocation rec =>
      simp [splitAlloc] at h
      obtain ⟨h1, h2⟩ := h
      subst h2
      simp [encodeTrace, List.length_append]
      omega
    | framePush tid fid =>
      simp only [splitAlloc] at h
      have := ih h
      simp [encodeTrace, List.length_append]
      omega
    | framePop tid =>
      simp only [splitAlloc] at h
      have := ih h
      simp [encodeTrace, List.length_append]
      omega
    | frameIndex fid fn file pl =>
      simp only [splitAlloc] at h
      have := ih h
      simp [encodeTrace, List.length_append]
      omega
    | nativeIndex ip idx =>
      simp only [splitAlloc] at h
      have := ih h
      simp [encodeTrace, List.length_append]
      omega
    | memoryMapStart =>
      simp only [splitAlloc] at h
      have := ih h
      simp [encodeTrace, List.length_append]
      omega
    | segmentHeader file addr segs =>
      simp only [splitAlloc] at h
      have := ih h
      simp [encodeTrace, List.length_append]
      omega

/-- Running the decode loop over a well-formed encoded trace: it consumes
records up to and including the first allocation (returning that
allocation verbatim, with the invariant re-established on the rest), or
consumes the whole trace and reports "no more records" when no allocation
remains. -/
theorem nextAux_trace : ∀ (rs : List TraceRecord) (fuel : Nat) (w : WfState)
    (st : RecordReader), DecInv w st → wellFormedFrom w rs = true →
    (encodeTrace rs).length < fuel →
    (match splitAlloc rs with
     | none => ∃ st', nextAux st fuel (encodeTrace rs) = .ok (none, st', [])
     | some (a, post) =>
       ∃ fidx gen st' w', nextAux st fuel (encodeTrace rs) =
           .ok (some ⟨a, fidx, gen⟩, st', encodeTrace post) ∧
         DecInv w' st' ∧ wellFormedFrom w' post = true) := by
  intro rs
  induction rs with
  | nil =>
    intro fuel w st hinv hwf hlen
    simp only [splitAlloc]
    cases fuel with
    | zero => simp [encodeTrace] at hlen
    | succ f => exact ⟨st, nextAux_nil st f⟩
  | cons r rs ih =>
    intro fuel w st hinv hwf hlen
    rw [show wellFormedFrom w (r :: rs) =
      (wfRecordOk w r && wellFormedFrom (wfStep w r) rs) from rfl] at hwf
    rw [Bool.and_eq_true] at hwf
    obtain ⟨hwr, hwrs⟩ := hwf
    have henc : encodeTrace (r :: rs) = encodeRecord r ++ encodeTrace rs := rfl
    have hpos := encodeRecord_length_pos r
    cases fuel with
    | zero => exact absurd hlen (Nat.not_lt_zero _)
    | succ f =>
      have hrec : (encodeTrace rs).length < f := by
        rw [henc] at hlen
        simp [List.length_append] at hlen
        omega
      cases r with
      | framePush tid fid =>
        simp only [wfRecordOk, Bool.and_eq_true, decide_eq_true_eq] at hwr
        obtain ⟨⟨h1, h2⟩, h3⟩ := hwr
        have h3' : fid ∈ w.ids := by simpa using h3
        rw [henc, nextAux_encode_push st f tid fid (encodeTrace rs) (lt64 h1) (lt64 h2)]
        have hinv' := DecInv_push w st tid fid hinv h3'
        have := ih f (wfStep w (.framePush tid fid)) _ hinv' hwrs hrec
        simpa only [splitAlloc] using this
      | framePop tid =>
        simp only [wfRecordOk, Bool.and_eq_true, decide_eq_true_eq] at hwr
        obtain ⟨h1, _⟩ := hwr
        rw [henc, nextAux_encode_pop st f tid (encodeTrace rs) (lt64 h1)]
        have hinv' := DecInv_pop w st tid hinv
        have := ih f (wfStep w (.framePop tid)) _ hinv' hwrs hrec
        simpa only [splitAlloc] using this
      | frameIndex fid fn file pl =>
        simp only [wfRecordOk, Bool.and_eq_true, decide_eq_true_eq] at hwr
        obtain ⟨⟨⟨⟨⟨h1, h2⟩, h3⟩, h4⟩, h5⟩, h6⟩ := hwr
        have h3' : fid ∉ w.ids := by simpa using h3
        have hfidnone : alookup fid st.d_frame_map = none := by
          cases hf : alookup fid st.d_frame_map with
          | none => rfl
          | some v => exact absurd ((hinv.even_ids fid h2).mp (by simp [hf])) h3'
        rw [henc, nextAux_encode_frameIndex st f fid fn file pl (encodeTrace rs)
          (lt64 h1) (strOk_ne h4) (strOk_ne h5) (lt32 h6)]
        rw [if_neg (by simp [hfidnone])]
        have hinv' := DecInv_frameIndex w st fid ⟨fn, file, pl, 0⟩ hinv h2 h3'
        have := ih f { w with ids := w.ids ++ [fid] } _ hinv' hwrs hrec
        simpa only [splitAlloc] using this
      | nativeIndex ip idx =>
        simp only [wfRecordOk, Bool.and_eq_true, decide_eq_true_eq] at hwr
        obtain ⟨h1, h2⟩ := hwr
        rw [henc, nextAux_encode_nativeIndex st f ip idx (encodeTrace rs) (lt64 h1) (lt64 h2)]
        have hinv' := DecInv_native w st ⟨ip, idx⟩ hinv
        have := ih f w _ hinv' hwrs hrec
        simpa only [splitAlloc] using this
      | memoryMapStart =>
        rw [henc, nextAux_encode_memoryMap st f (encodeTrace rs)]
        have hinv' := DecInv_resolver w st st.d_symbol_resolver.clearSegments hinv
        have := ih f w _ hinv' hwrs hrec
        simpa only [splitAlloc] using this
      | segmentHeader file addr segs =>
        simp only [wfRecordOk, Bool.and_eq_true, decide_eq_true_eq] at hwr
        obtain ⟨⟨⟨hs1, hs2⟩, hs3⟩, hs4⟩ := hwr
        have hs4' : ∀ s ∈ segs, s.vaddr < 256 ^ 8 ∧ s.memsz < 256 ^ 8 := by
          intro s hsm
          have := List.all_eq_true.mp hs4 s hsm
          simp at this
          exact ⟨lt64 this.1, lt64 this.2⟩
        rw [henc, nextAux_encode_segmentHeader st f file addr segs (encodeTrace rs)
          (strOk_ne hs1) (lt64 hs3) (lt64 hs2) hs4']
        have hinv' := DecInv_resolver w st
          (st.d_symbol_resolver.addSegments file addr (List.replicate segs.length ⟨0, 0⟩ ++ segs)) hinv
        have := ih f w _ hinv' hwrs hrec
        simpa only [splitAlloc] using this
      | allocation rec =>
        simp only [wfRecordOk, Bool.and_eq_true, decide_eq_true_eq] at hwr
        obtain ⟨⟨⟨⟨⟨h1, h2⟩, h3⟩, h4⟩, h5⟩, h6⟩ := hwr
        simp only [splitAlloc]
        obtain ⟨fidx, st', heq, hinv', hhd, hres⟩ :=
          getAllocationFrameIndex_spec w st rec hinv
        refine ⟨fidx, st'.d_symbol_resolver.currentSegmentGeneration, st', w, ?_, hinv', hwrs⟩
        rw [henc, nextAux_encode_alloc st f rec (encodeTrace rs)
          (lt64 h1) (lt64 h2) (lt64 h3) (lt8 h4) (lt64 h5) (lt32 h6)]
        rw [heq]

theorem splitAlloc_none_payloads : ∀ {rs : List TraceRecord}, splitAlloc rs = none →
    allocationPayloads rs = [] := by
  intro rs
  induction rs with
  | nil => intro _; rfl
  | cons r rs ih =>
    intro h
    cases r with
    | allocation rec => simp [splitAlloc] at h
    | framePush tid fid => exact ih h
    | framePop tid => exact ih h
    | frameIndex fid fn file pl => exact ih h
    | nativeIndex ip idx => exact ih h
    | memoryMapStart => exact ih h
    | segmentHeader file addr segs => exact ih h

theorem splitAlloc_some_payloads : ∀ {rs : List TraceRecord} {a : AllocationRecord}
    {post : List TraceRecord}, splitAlloc rs = some (a, post) →
    allocationPayloads rs = a :: allocationPayloads post := by
  intro rs
  induction rs with
  | nil => intro a post h; simp [splitAlloc] at h
  | cons r rs ih =>
    intro a post h
    cases r with
    | allocation rec =>
      simp [splitAlloc] at h
      obtain ⟨h1, h2⟩ := h
      subst h1
      subst h2
      rfl
    | framePush tid fid => exact ih h
    | framePop tid => exact ih h
    | frameIndex fid fn file pl => exact ih h
    | nativeIndex ip idx => exact ih h
    | memoryMapStart => exact ih h
    | segmentHeader file addr segs => exact ih h

theorem splitAlloc_records_lt : ∀ {rs : List TraceRecord} {a : AllocationRecord}
    {post : List TraceRecord}, splitAlloc rs = some (a, post) → post.length < rs.length := by
  intro rs
  induction rs with
  | nil => intro a post h; simp [splitAlloc] at h
  | cons r rs ih =>
    intro a post h
    cases r with
    | allocation rec =>
      simp [splitAlloc] at h
      obtain ⟨h1, h2⟩ := h
      subst h2
      simp
    | framePush tid fid => have := ih h; simp; omega
    | framePop tid => have := ih h; simp; omega
    | frameIndex fid fn file pl => have := ih h; simp; omega
    | nativeIndex ip idx => have := ih h; simp; omega
    | memoryMapStart => have := ih h; simp; omega
    | segmentHeader file addr segs => have := ih h; simp; omega

theorem collectAux_trace : ∀ (n : Nat) (rs : List TraceRecord) (fuel : Nat) (w : WfState)
    (st : RecordReader), rs.length ≤ n → DecInv w st → wellFormedFrom w rs = true →
    (encodeTrace rs).length < fuel →
    ∃ allocs st', collectAux fuel st (encodeTrace rs) = .ok (allocs, st') ∧
      allocs.map Allocation.record = allocationPayloads rs := by
  intro n
  induction n with
  | zero =>
    intro rs fuel w st hn hinv hwf hlen
    have hnil : rs = [] := List.length_eq_zero.mp (Nat.le_zero.mp hn)
    subst hnil
    cases fuel with
    | zero => simp [encodeTrace] at hlen
    | succ f =>
      have hnext : nextAllocationRecord st (encodeTrace []) = .ok (none, st, []) := by
        unfold nextAllocationRecord
        exact nextAux_nil st _
      refine ⟨[], st, ?_, rfl⟩
      simp only [collectAux]
      rw [hnext]
  | succ n ih =>
    intro rs fuel w st hn hinv hwf hlen
    cases fuel with
    | zero => exact absurd hlen (Nat.not_lt_zero _)
    | succ f =>
      have htr := nextAux_trace rs ((encodeTrace rs).length + 1) w st hinv hwf
        (Nat.lt_succ_self _)
      cases hsp : splitAlloc rs with
      | none =>
        rw [hsp] at htr
        obtain ⟨st', heq⟩ := htr
        refine ⟨[], st', ?_, (splitAlloc_none_payloads hsp).symm⟩
        simp only [collectAux, nextAllocationRecord]
        rw [heq]
      | some p =>
        obtain ⟨a, post⟩ := p
        rw [hsp] at htr
        obtain ⟨fidx, gen, st', w', heq, hinv', hwf'⟩ := htr
        have hlt := splitAlloc_length hsp
        have hcnt := splitAlloc_records_lt hsp
        obtain ⟨allocs, st'', heq2, hmap⟩ :=
          ih post f w' st' (by omega) hinv' hwf' (by omega)
        refine ⟨⟨a, fidx, gen⟩ :: allocs, st'', ?_, ?_⟩
        · simp only [collectAux, nextAllocationRecord]
          rw [heq]
          simp only []
          rw [heq2]
        · simp [hmap, splitAlloc_some_payloads hsp]

theorem nextAllocationRecord_header {st : RecordReader} {input : List Nat}
    {o : Option Allocation} {st' : RecordReader} {rest : List Nat}
    (h : nextAllocationRecord st input = .ok (o, st', rest)) : st'.d_header = st.d_header := by
  rcases nextAux_cases (input.length + 1) st input (Nat.lt_succ_self _) with
    ⟨o0, st0, r0, heq, hh, _, _⟩ | ⟨e, heq, _, _⟩
  · unfold nextAllocationRecord at h
    rw [heq] at h
    injection h with h
    injection h with h1 h2
    injection h2 with h2 h3
    rw [← h2]
    exact hh
  · unfold nextAllocationRecord at h
    rw [heq] at h
    exact Except.noConfusion h

/-- The corrected top-of-stack write-back: processing an allocation for a
thread whose stack is non-empty with a defined top replaces the top by a
synthesized identifier mapping to the top's frame with the allocation's
line filled in, and this replacement is stored back into the thread's
stack; the synthesized-table invariants are maintained. -/
theorem getAllocationFrameIndex_corrects (st : RecordReader) (rec : AllocationRecord)
    (s : List Nat) (t : Nat) (F : Frame)
    (hs : alookup rec.tid st.d_stack_traces = some s)
    (hlast : s.getLast? = some t)
    (hF : alookup t st.d_frame_map = some F)
    (hodd : OddKeys 0 st.d_allocation_frames)
    (hsub : ∀ k f, (k, f) ∈ st.d_allocation_frames → alookup k st.d_frame_map = some f)
    (hofc : ∀ k, k % 2 = 1 → (alookup k st.d_frame_map).isSome = true →
      ∃ f, (k, f) ∈ st.d_allocation_frames) :
    ∃ idx fidx st', getAllocationFrameIndex st rec = .ok (fidx, st') ∧
      alookup rec.tid st'.d_stack_traces = some (s.dropLast ++ [idx]) ∧
      alookup idx st'.d_frame_map =
        some ⟨F.function_name, F.filename, F.parent_lineno, rec.py_lineno⟩ ∧
      (s.dropLast ++ [idx]).getLast? = some idx ∧
      OddKeys 0 st'.d_allocation_frames ∧
      (∀ k f, (k, f) ∈ st'.d_allocation_frames → alookup k st'.d_frame_map = some f) ∧
      (∀ k, k % 2 = 1 → (alookup k st'.d_frame_map).isSome = true →
        ∃ f, (k, f) ∈ st'.d_allocation_frames) := by
  obtain ⟨idx, st1, hceq, hst, htr, hnf, hres, hhd, hodd1, hsub1, hofc1, hmono, heven,
    hoddidx, hidxval⟩ :=
    correctAllocationFrame_spec st s rec.py_lineno t hlast F hF hodd hsub hofc
  unfold getAllocationFrameIndex
  rw [hs]
  simp only []
  rw [hceq]
  simp only []
  rcases hgt : FrameTree.getTraceIndex st1.d_tree (s.dropLast ++ [idx]) with ⟨t2, fidx⟩
  refine ⟨idx, fidx,
    { st1 with d_stack_traces := aset rec.tid (s.dropLast ++ [idx]) st1.d_stack_traces, d_tree := t2 },
    rfl, ?_, ?_, List.getLast?_concat _, hodd1, hsub1, hofc1⟩
  · simp only []
    rw [alookup_aset_self]
  · simp only []
    exact hidxval

/-! ## Concrete instances used by witnesses and counterexamples -/

/-- A parsed header for building concrete reader states. -/
def hdrW : HeaderRecord := ⟨MAGIC, 1, 0, List.replicate 24 0, []⟩

/-- The end-to-end scenario of the spec: define a frame, push it on thread
7, allocate 128 bytes at line 42. -/
def recW : AllocationRecord := ⟨7, 0, 128, 1, 0, 42⟩

def traceW : List TraceRecord :=
  [.frameIndex 2 [102, 111, 111] [97, 46, 112, 121] 0, .framePush 7 2, .allocation recW]

/-- The post-state accessor used to observe decoding effects. -/
def decodeState (st : RecordReader) (input : List Nat) : Option RecordReader :=
  match nextAllocationRecord st input with
  | .ok (_, st', _) => some st'
  | .error _ => none

/-! ## The claims -/

/-- C1: for every well-formed trace, repeated calls to `decode_next`
(`nextAllocationRecord`) return exactly one decoded allocation per
ALLOCATION record, in the same order the ALLOCATION records appear in the
byte stream, and once the stream is exhausted `decode_next` returns the
normal "no more records" result rather than an error. -/
theorem nextAllocationRecord_wellFormed_order (rs : List TraceRecord) (hdr : HeaderRecord)
    (hwf : wellFormed rs = true) :
    ∃ allocs st', collectAllocations (initReader hdr) (encodeTrace rs) = .ok (allocs, st') ∧
      allocs.map Allocation.record = allocationPayloads rs := by
  have := collectAux_trace rs.length rs ((encodeTrace rs).length + 1) ⟨[], []⟩
    (initReader hdr) (Nat.le_refl _) (DecInv_init hdr) hwf (Nat.lt_succ_self _)
  simpa [collectAllocations] using this

theorem nextAllocationRecord_wellFormed_order_witness :
    wellFormed traceW = true ∧
    ∃ allocs st', collectAllocations (initReader hdrW) (encodeTrace traceW) = .ok (allocs, st') ∧
      allocs.map Allocation.record = allocationPayloads traceW :=
  ⟨by decide, nextAllocationRecord_wellFormed_order traceW hdrW (by decide)⟩

/-- The state for observing the line correction: thread 7 has pushed
frame 2, which is defined in the frame map. -/
def stC2 : RecordReader :=
  { initReader hdrW with d_frame_map := [(2, ⟨[102], [97], 5, 0⟩)],
                         d_stack_traces := [(7, [2])] }

/-- C2 counterexample: the claim says the top-of-stack entry is rewritten
only for the duration of processing one allocation and the thread's stack
is unchanged after `decode_next` returns.  In fact the rewrite is stored
back into the thread's stack: before decoding, thread 7's stack is `[2]`;
after decoding one allocation it is `[1]`, the synthesized precise
identifier. -/
theorem correctAllocationFrame_not_transient :
    (decodeState stC2 (encodeRecord (.allocation recW))).map
        (fun s => alookup 7 s.d_stack_traces) = some (some [1]) ∧
      alookup 7 stC2.d_stack_traces = some [2] ∧
      (some [1] : Option (List Nat)) ≠ some [2] := by
  refine ⟨by decide, by decide, by decide⟩

/-- C2 amended: processing an allocation for a thread with a non-empty
stack permanently replaces the top-of-stack entry with the synthesized
precise identifier — the replacement is stored in the thread's stack and
persists after `decode_next` returns (until that entry is popped).  The
correction is nevertheless recomputed on every later allocation
attributed to that frame: the corrected entry maps to a frame with the
original function, file and caller line, so a second allocation at line
`l'` again synthesizes the precise frame with those fields and `l'`. -/
theorem correctAllocationFrame_persists_and_recomputes (st : RecordReader)
    (rec rec' : AllocationRecord) (s : List Nat) (t : Nat) (F : Frame)
    (htid : rec'.tid = rec.tid)
    (hs : alookup rec.tid st.d_stack_traces = some s)
    (hlast : s.getLast? = some t)
    (hF : alookup t st.d_frame_map = some F)
    (hodd : OddKeys 0 st.d_allocation_frames)
    (hsub : ∀ k f, (k, f) ∈ st.d_allocation_frames → alookup k st.d_frame_map = some f)
    (hofc : ∀ k, k % 2 = 1 → (alookup k st.d_frame_map).isSome = true →
      ∃ f, (k, f) ∈ st.d_allocation_frames) :
    ∃ idx fidx st', getAllocationFrameIndex st rec = .ok (fidx, st') ∧
      alookup rec.tid st'.d_stack_traces = some (s.dropLast ++ [idx]) ∧
      alookup idx st'.d_frame_map =
        some ⟨F.function_name, F.filename, F.parent_lineno, rec.py_lineno⟩ ∧
      ∃ idx2 fidx2 st'', getAllocationFrameIndex st' rec' = .ok (fidx2, st'') ∧
        alookup rec.tid st''.d_stack_traces = some (s.dropLast ++ [idx2]) ∧
        alookup idx2 st''.d_frame_map =
          some ⟨F.function_name, F.filename, F.parent_lineno, rec'.py_lineno⟩ := by
  obtain ⟨idx, fidx, st', heq, hstk, hval, hlast', hodd', hsub', hofc'⟩ :=
    getAllocationFrameIndex_corrects st rec s t F hs hlast hF hodd hsub hofc
  refine ⟨idx, fidx, st', heq, hstk, hval, ?_⟩
  have hs2 : alookup rec'.tid st'.d_stack_traces = some (s.dropLast ++ [idx]) := by
    rw [htid]
    exact hstk
  obtain ⟨idx2, fidx2, st'', heq2, hstk2, hval2, _, _, _, _⟩ :=
    getAllocationFrameIndex_corrects st' rec' (s.dropLast ++ [idx]) idx
      ⟨F.function_name, F.filename, F.parent_lineno, rec.py_lineno⟩ hs2 hlast' hval
      hodd' hsub' hofc'
  refine ⟨idx2, fidx2, st'', heq2, ?_, hval2⟩
  rw [← htid]
  rw [List.dropLast_concat] at hstk2
  exact hstk2

theorem correctAllocationFrame_persists_and_recomputes_witness :
    ∃ idx fidx st', getAllocationFrameIndex stC2 recW = .ok (fidx, st') ∧
      alookup 7 st'.d_stack_traces = some ([].dropLast ++ [idx] : List Nat) ∧
      alookup idx st'.d_frame_map = some ⟨[102], [97], 5, 42⟩ ∧
      ∃ idx2 fidx2 st'', getAllocationFrameIndex st' ⟨7, 0, 8, 1, 0, 57⟩ = .ok (fidx2, st'') ∧
        alookup 7 st''.d_stack_traces = some ([].dropLast ++ [idx2] : List Nat) ∧
        alookup idx2 st''.d_frame_map = some ⟨[102], [97], 5, 57⟩ := by
  have h := correctAllocationFrame_persists_and_recomputes stC2 recW ⟨7, 0, 8, 1, 0, 57⟩
    [2] 2 ⟨[102], [97], 5, 0⟩ (by decide) (by decide) (by decide) (by decide) trivial
    (by intro k f hm; simp [stC2, initReader] at hm) ?_
  · simpa using h
  · intro k hk hsome
    by_cases h2 : k = 2
    · omega
    · simp [stC2, initReader, alookup, h2] at hsome

/-- C3 counterexample: the claim says a POP for a thread whose stack is
empty fails with `ProtocolError` propagated out of `decode_next`.  In
fact decoding a POP for thread 3 (which has no stack) completes without
any error: the call returns the normal "no more records" result after
consuming the record, with an empty stack entry created for the thread
(`d_stack_traces[tid]` default-constructs it). -/
theorem parseFrame_pop_empty_not_error :
    nextAllocationRecord (initReader hdrW) (encodeRecord (.framePop 3)) =
      .ok (none, { initReader hdrW with d_stack_traces := [(3, [])] }, []) := by
  decide

/-- C3 amended: applying a POP `FrameSeqEntry` to a thread whose stack is
empty raises no error at all: the C++ guards the pop only with a
debug-mode `assert` (popping an empty `std::vector` is otherwise
undefined behaviour, modelled here as leaving the stack empty), the
decoder state advances past the record, and `decode_next` continues
normally. -/
theorem parseFrame_pop_empty_no_error (st : RecordReader) (tid : Nat)
    (htid : tid < 2 ^ 64)
    (hempty : (alookup tid st.d_stack_traces).getD [] = []) :
    nextAllocationRecord st (encodeRecord (.framePop tid)) =
      .ok (none, { st with d_stack_traces := aset tid [] st.d_stack_traces }, []) := by
  unfold nextAllocationRecord
  have hnil : encodeRecord (.framePop tid) = encodeRecord (.framePop tid) ++ [] := by simp
  rw [hnil]
  rw [nextAux_encode_pop st _ tid [] (lt64 htid)]
  rw [hempty]
  simp only [List.dropLast_nil]
  have hl : (encodeRecord (.framePop tid) ++ []).length = 18 := by
    simp [encodeRecord, natLE_length]
  rw [hl]
  exact nextAux_nil _ 17

theorem parseFrame_pop_empty_no_error_witness :
    nextAllocationRecord (initReader hdrW) (encodeRecord (.framePop 3)) =
      .ok (none, { initReader hdrW with d_stack_traces := aset 3 [] (initReader hdrW).d_stack_traces }, []) :=
  parseFrame_pop_empty_no_error (initReader hdrW) 3 (by decide) (by decide)

/-- C4 (code bug): a SEGMENT_HEADER announcing `n` segments registers the
vector `std::vector<Segment> segments(num_segments)` — `n`
value-initialized placeholder segments — with the `n` parsed segments
`emplace_back`ed after them: `2 * n` entries in total, not the `n` parsed
segments the spec describes. -/
theorem parseSegmentHeader_registers_placeholders (st : RecordReader) (file : List Nat)
    (addr : Nat) (segs : List Segment) (rest : List Nat) (h1 : ∀ b ∈ file, b ≠ 0)
    (h2 : segs.length < 256 ^ 8) (h3 : addr < 256 ^ 8)
    (h4 : ∀ s ∈ segs, s.vaddr < 256 ^ 8 ∧ s.memsz < 256 ^ 8) :
    parseSegmentHeader st (file ++ 0 :: (natLE 8 segs.length ++ (natLE 8 addr ++ (encodeSegments segs ++ rest)))) =
      .ok ({ st with d_symbol_resolver := st.d_symbol_resolver.addSegments file addr (List.replicate segs.length ⟨0, 0⟩ ++ segs) }, rest) ∧
    (List.replicate segs.length (⟨0, 0⟩ : Segment) ++ segs).length = 2 * segs.length := by
  refine ⟨parseSegmentHeader_encode st file addr segs rest h1 h2 h3 h4, ?_⟩
  simp
  omega

theorem parseSegmentHeader_registers_placeholders_witness :
    parseSegmentHeader (initReader hdrW)
        ([120] ++ 0 :: (natLE 8 1 ++ (natLE 8 4096 ++ (encodeSegments [⟨100, 200⟩] ++ [])))) =
      .ok ({ initReader hdrW with d_symbol_resolver :=
              (initReader hdrW).d_symbol_resolver.addSegments [120] 4096 [⟨0, 0⟩, ⟨100, 200⟩] }, []) ∧
    (List.replicate 1 (⟨0, 0⟩ : Segment) ++ ([⟨100, 200⟩] : List Segment)).length = 2 * 1 := by
  have h := parseSegmentHeader_registers_placeholders (initReader hdrW) [120] 4096
    ([⟨100, 200⟩] : List Segment) [] (by decide) (by decide) (by decide) (by decide)
  simpa using h

/-- C5: a FRAME_INDEX record defining a frame id already present in the
frame table makes `decode_next` fail with the duplicate-id protocol error
("Two entries with the same ID found!"), whatever the record's content;
the propagated failure is an `error` result, distinct by construction
from the `ok none` end-of-stream result of `decode_next`. -/
theorem parseFrameIndex_duplicate_fails (st : RecordReader) (fid : Nat) (fn file : List Nat)
    (pl : Nat) (hdup : (alookup fid st.d_frame_map).isSome = true)
    (hfid : fid < 256 ^ 8) (hfn : ∀ b ∈ fn, b ≠ 0) (hfile : ∀ b ∈ file, b ≠ 0)
    (hpl : pl < 256 ^ 4) :
    nextAllocationRecord st (encodeRecord (.frameIndex fid fn file pl)) =
        .error .duplicateFrameId ∧
      ∀ (o : Option Allocation) (st' : RecordReader) (rest : List Nat),
        (Except.error DecodeError.duplicateFrameId :
            Except DecodeError (Option Allocation × RecordReader × List Nat)) ≠
          .ok (o, st', rest) := by
  constructor
  · unfold nextAllocationRecord
    have hnil : encodeRecord (.frameIndex fid fn file pl) =
        encodeRecord (.frameIndex fid fn file pl) ++ [] := by simp
    rw [hnil]
    rw [nextAux_encode_frameIndex st _ fid fn file pl [] hfid hfn hfile hpl]
    rw [if_pos hdup]
  · intro o st' rest h
    exact Except.noConfusion h

theorem parseFrameIndex_duplicate_fails_witness :
    nextAllocationRecord stC2 (encodeRecord (.frameIndex 2 [104] [98] 9)) =
        .error .duplicateFrameId ∧
      ∀ (o : Option Allocation) (st' : RecordReader) (rest : List Nat),
        (Except.error DecodeError.duplicateFrameId :
            Except DecodeError (Option Allocation × RecordReader × List Nat)) ≠
          .ok (o, st', rest) :=
  parseFrameIndex_duplicate_fails stC2 2 [104] [98] 9 (by decide) (by decide)
    (by decide) (by decide) (by decide)

theorem readNat_one_cons (b : Nat) (rest : List Nat) :
    readNat 1 (b :: rest) = .ok (b, rest) := by
  simp [readNat, readByte_cons, leToNat_single]

/-- The writer-side header layout: magic, version, native-traces flag,
stats blob, NUL-terminated command line. -/
def encodeHeader (magic : List Nat) (version nt : Nat) (stats cmd : List Nat) : List Nat :=
  magic ++ (natLE 4 version ++ (nt :: (stats ++ (cmd ++ [0]))))

/-- C6: constructing the reader fails with the format error exactly when
the header's magic bytes differ from `MAGIC` or its version differs from
the single supported version — and this happens in `readHeader`, before
any record is read.  On success the parsed header is stored in the
reader and `getHeader` returns it; no later `decode_next` call ever
changes it. -/
theorem readHeader_formatError_iff (magic : List Nat) (version nt : Nat)
    (stats cmd rest : List Nat) (hm : magic.length = 8) (hst : stats.length = 24)
    (hcmd : ∀ b ∈ cmd, b ≠ 0) (hv : version < 256 ^ 4) :
    (readHeader (encodeHeader magic version nt stats cmd ++ rest) = .error .formatError ↔
      (magic ≠ MAGIC ∨ version ≠ CURRENT_HEADER_VERSION)) ∧
    (magic = MAGIC → version = CURRENT_HEADER_VERSION →
      mkRecordReader (encodeHeader magic version nt stats cmd ++ rest) =
        .ok (initReader ⟨magic, version, nt, stats, cmd⟩, rest) ∧
      getHeader (initReader ⟨magic, version, nt, stats, cmd⟩) = ⟨magic, version, nt, stats, cmd⟩) ∧
    (∀ (st : RecordReader) (input : List Nat) (o : Option Allocation)
      (st' : RecordReader) (r' : List Nat),
      nextAllocationRecord st input = .ok (o, st', r') → getHeader st' = getHeader st) := by
  have hpres : ∀ (st : RecordReader) (input : List Nat) (o : Option Allocation)
      (st' : RecordReader) (r' : List Nat),
      nextAllocationRecord st input = .ok (o, st', r') → getHeader st' = getHeader st := by
    intro st input o st' r' h
    exact nextAllocationRecord_header h
  have hshape : encodeHeader magic version nt stats cmd ++ rest =
      magic ++ (natLE 4 version ++ (nt :: (stats ++ (cmd ++ (0 :: rest))))) := by
    simp [encodeHeader]
  by_cases hM : magic = MAGIC
  · by_cases hV : version = CURRENT_HEADER_VERSION
    · have hok : readHeader (encodeHeader magic version nt stats cmd ++ rest) =
          .ok (⟨magic, version, nt, stats, cmd⟩, rest) := by
        unfold readHeader
        rw [hshape]
        rw [readBytes_exact 8 magic _ hm]
        simp only []
        rw [if_neg (by simp [hM])]
        rw [readNat_encode 4 version _ hv]
        simp only []
        rw [if_neg (by simp [hV])]
        rw [readNat_one_cons]
        simp only []
        rw [readBytes_exact 24 stats _ hst]
        simp only []
        rw [readCString_encode cmd rest hcmd]
      refine ⟨?_, fun _ _ => ⟨?_, rfl⟩, hpres⟩
      · rw [hok]
        simp [hM, hV]
      · unfold mkRecordReader
        rw [hok]
    · have hfe : readHeader (encodeHeader magic version nt stats cmd ++ rest) =
          .error .formatError := by
        unfold readHeader
        rw [hshape]
        rw [readBytes_exact 8 magic _ hm]
        simp only []
        rw [if_neg (by simp [hM])]
        rw [readNat_encode 4 version _ hv]
        simp only []
        rw [if_pos hV]
      refine ⟨?_, fun _ h2 => absurd h2 hV, hpres⟩
      rw [hfe]
      simp [hV]
  · have hfe : readHeader (encodeHeader magic version nt stats cmd ++ rest) =
        .error .formatError := by
      unfold readHeader
      rw [hshape]
      rw [readBytes_exact 8 magic _ hm]
      simp only []
      rw [if_pos hM]
    refine ⟨?_, fun h1 => absurd h1 hM, hpres⟩
    rw [hfe]
    simp [hM]

theorem readHeader_formatError_iff_witness :
    (readHeader (encodeHeader MAGIC 1 0 (List.replicate 24 0) [99] ++ [5]) =
        .error .formatError ↔
      (MAGIC ≠ MAGIC ∨ (1 : Nat) ≠ CURRENT_HEADER_VERSION)) ∧
    (MAGIC = MAGIC → (1 : Nat) = CURRENT_HEADER_VERSION →
      mkRecordReader (encodeHeader MAGIC 1 0 (List.replicate 24 0) [99] ++ [5]) =
        .ok (initReader ⟨MAGIC, 1, 0, List.replicate 24 0, [99]⟩, [5]) ∧
      getHeader (initReader ⟨MAGIC, 1, 0, List.replicate 24 0, [99]⟩) =
        ⟨MAGIC, 1, 0, List.replicate 24 0, [99]⟩) ∧
    (∀ (st : RecordReader) (input : List Nat) (o : Option Allocation)
      (st' : RecordReader) (r' : List Nat),
      nextAllocationRecord st input = .ok (o, st', r') → getHeader st' = getHeader st) :=
  readHeader_formatError_iff MAGIC 1 0 (List.replicate 24 0) [99] [5] (by decide)
    (by decide) (by decide) (by decide)

/-- C7: an allocation for a thread id that never received a PUSH (no entry
in `d_stack_traces`) resolves to trace index 0 with the state untouched —
no line correction is applied — and walking the Python stack from index 0
yields the empty sequence for any depth bound. -/
theorem allocation_without_stack_is_index_zero :
    (∀ (st : RecordReader) (rec : AllocationRecord),
      alookup rec.tid st.d_stack_traces = none →
      getAllocationFrameIndex st rec = .ok (0, st)) ∧
    (∀ (tree : FrameTree) (fm : List (Nat × Frame)) (maxd : Nat),
      Py_GetStackFrame tree fm 0 maxd = some []) := by
  constructor
  · intro st rec h
    unfold getAllocationFrameIndex
    rw [h]
  · intro tree fm maxd
    cases maxd <;> rfl

theorem allocation_without_stack_is_index_zero_witness :
    getAllocationFrameIndex stC2 ⟨99, 0, 16, 1, 0, 7⟩ = .ok (0, stC2) ∧
    Py_GetStackFrame ⟨[(1, 0)]⟩ [(1, ⟨[102], [97], 3, 42⟩)] 0 5 = some [] :=
  ⟨allocation_without_stack_is_index_zero.1 stC2 ⟨99, 0, 16, 1, 0, 7⟩ (by decide),
   allocation_without_stack_is_index_zero.2 ⟨[(1, 0)]⟩ [(1, ⟨[102], [97], 3, 42⟩)] 5⟩

theorem pyWalkGo_length_le : ∀ (maxd : Nat) (tree : FrameTree) (fm : List (Nat × Frame))
    (idx : Nat) (c : Int) (l : List (Frame × Int)),
    pyWalkGo tree fm maxd idx c = some l → l.length ≤ maxd := by
  intro maxd
  induction maxd with
  | zero =>
    intro tree fm idx c l h
    cases idx with
    | zero =>
      simp [pyWalkGo] at h
      subst h
      simp
    | succ j =>
      simp [pyWalkGo] at h
      subst h
      simp
  | succ m ih =>
    intro tree fm idx c l h
    cases idx with
    | zero =>
      simp [pyWalkGo] at h
      subst h
      simp
    | succ j =>
      simp only [pyWalkGo] at h
      cases hn : tree.nextNode (j + 1) with
      | none => rw [hn] at h; simp at h
      | some node =>
        rw [hn] at h
        simp only [] at h
        cases hf : alookup node.1 fm with
        | none => rw [hf] at h; simp at h
        | some fr =>
          rw [hf] at h
          simp only [] at h
          cases hr : pyWalkGo tree fm m node.2 (fr.parent_lineno : Int) with
          | none => rw [hr] at h; simp at h
          | some rest =>
            rw [hr] at h
            simp only [] at h
            injection h with h
            rw [← h]
            simp
            exact ih tree fm node.2 _ rest hr

theorem nativeWalkGo_steps_le : ∀ (maxd : Nat) (chain : List UnresolvedNativeFrame)
    (resolve : Nat → Nat → Option (List Nat)) (gen idx : Nat) (fr : List Nat) (steps : Nat),
    nativeWalkGo chain resolve gen maxd idx = some (fr, steps) → steps ≤ maxd := by
  intro maxd
  induction maxd with
  | zero =>
    intro chain resolve gen idx fr steps h
    cases idx with
    | zero =>
      simp [nativeWalkGo] at h
      omega
    | succ j =>
      simp [nativeWalkGo] at h
      omega
  | succ m ih =>
    intro chain resolve gen idx fr steps h
    cases idx with
    | zero =>
      simp [nativeWalkGo] at h
      omega
    | succ j =>
      simp only [nativeWalkGo] at h
      cases hg : chain.get? j with
      | none => rw [hg] at h; simp at h
      | some f =>
        rw [hg] at h
        simp only [] at h
        cases hr : nativeWalkGo chain resolve gen m f.index with
        | none => rw [hr] at h; simp at h
        | some p =>
          obtain ⟨fr0, steps0⟩ := p
          rw [hr] at h
          simp only [] at h
          have hst := ih chain resolve gen f.index fr0 steps0 hr
          cases hres : resolve f.ip gen with
          | none =>
            rw [hres] at h
            injection h with h
            injection h with h1 h2
            omega
          | some fs =>
            rw [hres] at h
            injection h with h
            injection h with h1 h2
            omega

/-- A one-node tree whose node is its own parent: a cyclic chain. -/
def cycTree : FrameTree := ⟨[(1, 1)]⟩

def cycFm : List (Nat × Frame) := [(1, ⟨[102], [97], 3, 42⟩)]

theorem pyWalkGo_cyc : ∀ (maxd : Nat) (c : Int),
    ∃ l, pyWalkGo cycTree cycFm maxd 1 c = some l ∧ l.length = maxd := by
  intro maxd
  induction maxd with
  | zero => intro c; exact ⟨[], rfl, rfl⟩
  | succ m ih =>
    intro c
    obtain ⟨l, hl, hlen⟩ := ih (3 : Int)
    refine ⟨((⟨[102], [97], 3, 42⟩ : Frame), c) :: l, ?_, by simp [hlen]⟩
    simp only [pyWalkGo]
    rw [show cycTree.nextNode (0 + 1) = some (1, 1) from rfl]
    simp only []
    rw [show alookup 1 cycFm = some (⟨[102], [97], 3, 42⟩ : Frame) from rfl]
    simp only [Nat.cast_ofNat]
    rw [hl]

/-- C8: both stack walks honour the caller-supplied depth bound: a Python
walk returns at most `max_depth` frames (one per link), a native walk
traverses at most `max_depth` links, both stop immediately at the 0
sentinel, and even on cyclic link data (a node that is its own parent)
the walk terminates, at exactly the depth bound. -/
theorem walks_bounded_by_max_depth :
    (∀ (tree : FrameTree) (fm : List (Nat × Frame)) (idx maxd : Nat)
      (l : List (Frame × Int)),
      Py_GetStackFrame tree fm idx maxd = some l → l.length ≤ maxd) ∧
    (∀ (chain : List UnresolvedNativeFrame) (resolve : Nat → Nat → Option (List Nat))
      (idx gen maxd : Nat) (fr : List Nat) (steps : Nat),
      Py_GetNativeStackFrame chain resolve idx gen maxd = some (fr, steps) → steps ≤ maxd) ∧
    (∀ (tree : FrameTree) (fm : List (Nat × Frame)) (maxd : Nat),
      Py_GetStackFrame tree fm 0 maxd = some []) ∧
    (∀ (chain : List UnresolvedNativeFrame) (resolve : Nat → Nat → Option (List Nat))
      (gen maxd : Nat), Py_GetNativeStackFrame chain resolve 0 gen maxd = some ([], 0)) ∧
    (∀ maxd : Nat, ∃ l, Py_GetStackFrame cycTree cycFm 1 maxd = some l ∧ l.length = maxd) := by
  refine ⟨?_, ?_, ?_, ?_, ?_⟩
  · intro tree fm idx maxd l h
    exact pyWalkGo_length_le maxd tree fm idx (-1) l h
  · intro chain resolve idx gen maxd fr steps h
    exact nativeWalkGo_steps_le maxd chain resolve gen idx fr steps h
  · intro tree fm maxd
    cases maxd <;> rfl
  · intro chain resolve gen maxd
    cases maxd <;> rfl
  · intro maxd
    exact pyWalkGo_cyc maxd (-1)

theorem walks_bounded_by_max_depth_witness :
    Py_GetStackFrame cycTree cycFm 1 2 =
        some [((⟨[102], [97], 3, 42⟩ : Frame), (-1 : Int)), (⟨[102], [97], 3, 42⟩, 3)] ∧
    ([((⟨[102], [97], 3, 42⟩ : Frame), (-1 : Int)), (⟨[102], [97], 3, 42⟩, 3)]).length ≤ 2 := by
  refine ⟨by decide, ?_⟩
  exact walks_bounded_by_max_depth.1 cycTree cycFm 1 2 _ (by decide)

/-- C9: the source's end-of-input error (`IoError`) is caught inside
`nextAllocationRecord` wherever it arises — in the middle of a record's
type tag or payload included — and surfaces as the normal "no more
records" result, never as an error of `decode_next`; a trace truncated
mid-record is thus indistinguishable at this interface from a cleanly
exhausted one.  State mutations from records fully processed before the
truncation point are retained, as the concrete truncated trace shows: the
FRAME_INDEX and PUSH records take effect even though the following
ALLOCATION record is cut off inside its payload. -/
theorem truncated_stream_is_end_of_stream :
    (∀ (st : RecordReader) (input : List Nat),
      nextAllocationRecord st input ≠ .error .ioError ∧
      nextAllocationRecord st input ≠ .error .outOfFuel) ∧
    (nextAllocationRecord (initReader hdrW)
        (encodeTrace [.frameIndex 2 [102] [97] 0, .framePush 7 2] ++ [RT_ALLOCATION, 9, 9]) =
      .ok (none,
        { initReader hdrW with d_frame_map := [(2, ⟨[102], [97], 0, 0⟩)],
                               d_stack_traces := [(7, [2])] },
        [9, 9])) := by
  constructor
  · intro st input
    rcases nextAux_cases (input.length + 1) st input (Nat.lt_succ_self _) with
      ⟨o, st', rest, heq, _, _, _⟩ | ⟨e, heq, hne1, hne2⟩
    · unfold nextAllocationRecord
      rw [heq]
      exact ⟨Except.noConfusion, Except.noConfusion⟩
    · unfold nextAllocationRecord
      rw [heq]
      constructor
      · intro h
        injection h with h
        exact hne1 h
      · intro h
        injection h with h
        exact hne2 h
  · decide

def chainC10 : List UnresolvedNativeFrame := [⟨500, 0⟩, ⟨600, 1⟩]

def resolveFew : Nat → Nat → Option (List Nat) := fun ip _ =>
  if ip = 500 then some [11] else none

def resolveInl : Nat → Nat → Option (List Nat) := fun ip _ =>
  if ip = 500 then some [11, 12] else none

/-- C10: in the native-stack walk every traversed chain link counts
against `max_depth` even when the resolver returns nothing for its
instruction pointer: the unresolved link is skipped, contributing zero
frames while still consuming one unit of depth.  Consequently the result
can have fewer entries than the number of links traversed (concretely:
two links, one unresolved, one frame out) and more entries when one link
resolves to several inlined frames (one link, two frames out). -/
theorem native_walk_unresolved_counts_depth :
    (∀ (chain : List UnresolvedNativeFrame) (resolve : Nat → Nat → Option (List Nat))
      (gen maxd idx : Nat) (f : UnresolvedNativeFrame),
      chain.get? (idx - 1) = some f → idx ≠ 0 → resolve f.ip gen = none →
      nativeWalkGo chain resolve gen (maxd + 1) idx =
        (nativeWalkGo chain resolve gen maxd f.index).map (fun p => (p.1, p.2 + 1))) ∧
    Py_GetNativeStackFrame chainC10 resolveFew 2 0 10 = some ([11], 2) ∧
    Py_GetNativeStackFrame [⟨500, 0⟩] resolveInl 1 0 10 = some ([11, 12], 1) := by
  refine ⟨?_, by decide, by decide⟩
  intro chain resolve gen maxd idx f hget hne hres
  cases idx with
  | zero => exact absurd rfl hne
  | succ j =>
    simp only [nativeWalkGo]
    simp only [Nat.add_sub_cancel] at hget
    rw [hget]
    simp only []
    cases hr : nativeWalkGo chain resolve gen maxd f.index with
    | none => simp
    | some p =>
      obtain ⟨fr, steps⟩ := p
      rw [hres]
      simp

theorem native_walk_unresolved_counts_depth_witness :
    nativeWalkGo chainC10 resolveFew 0 (5 + 1) 2 =
      (nativeWalkGo chainC10 resolveFew 0 5 1).map (fun p => (p.1, p.2 + 1)) :=
  native_walk_unresolved_counts_depth.1 chainC10 resolveFew 0 5 2 ⟨600, 1⟩
    (by decide) (by decide) (by decide)

theorem truncated_stream_is_end_of_stream_witness :
    nextAllocationRecord (initReader hdrW) [RT_FRAME, 9] ≠ .error .ioError ∧
    nextAllocationRecord (initReader hdrW) [RT_FRAME, 9] ≠ .error .outOfFuel :=
  truncated_stream_is_end_of_stream.1 (initReader hdrW) [RT_FRAME, 9]
